import Mathlib

/-!
Verification of the Onyx bytecode interpreter core (C sources) against its
natural-language specification.

The development shallowly embeds the C sources:

* `table.c` (the open-addressing hash table used for globals and for the
  string-interning pool) — section `Onyx.Table`;
* `vm.c` (value model, call frames, upvalues, opcode dispatch) — section
  `Onyx.VM`;
* `compiler.c` (the single-pass Pratt compiler as present in the tree) —
  section `Onyx.Comp`.

Machine doubles are modelled as `Rat` (no claim under study depends on
IEEE-754-specific behaviour).  Heap pointers are modelled as natural-number
identities.  C loops whose termination is a global invariant (hash probing,
parser recursion) take an explicit fuel argument; every theorem supplies
enough fuel, and fuel exhaustion is modelled as a distinguished failure so
nothing is ever proved by running out of fuel.

A few definitions are modelled from the spec because their defining
translation units are not part of the source tree (only their callers and
declarations are): the capacity growth policy (`memory.h`), the
`FRAMES_MAX`/`STACK_MAX` limits (`vm.h`), string interning/allocation
(`object.c`), the full chunk with line and constant arrays (`chunk.c` in the
tree is an earlier revision without them, while `compiler.c` calls the full
interface), and `valuesEqual` (`value.c`).  Each such definition carries a
doc comment starting with "Modelled from the spec:".
-/

namespace Onyx

/-! ## Value and object model (vm.c / object.h) -/

/-- Opcodes of the virtual machine, as dispatched by `run` in `vm.c`.
The full enum lives in the (missing) full `chunk.h`; the constructor set is
exactly the set of opcodes `vm.c` and `compiler.c` use. -/
inductive OpCode where
  | CONSTANT | NIL | TRUE | FALSE | POP
  | GET_LOCAL | SET_LOCAL
  | GET_GLOBAL | DEFINE_GLOBAL | SET_GLOBAL
  | GET_UPVALUE | SET_UPVALUE
  | EQUAL | GREATER | LESS
  | ADD | SUBTRACT | MULTIPLY | DIVIDE | INT_DIVIDE | MODULUS
  | NOT | NEGATE | PRINT
  | JUMP | JUMP_IF_FALSE | LOOP
  | CALL | CLOSURE | CLOSE_UPVALUE | RETURN
deriving DecidableEq, Repr

/-- One byte of a chunk's `code` array: either an opcode or a raw operand
byte.  (C stores both as `uint8_t`; the sum type records which role each
byte plays, which compiled code determines uniquely.) -/
inductive CByte where
  | op (o : OpCode)
  | arg (n : Nat)
deriving DecidableEq, Repr

/-- Modelled from the spec: the full `Chunk` of the final `chunk.c` (the
`chunk.c` in the tree is an earlier revision with only the `code` array,
while `compiler.c` and `vm.c` use the full interface): growable `code`
bytes, a parallel `lines` array, and a `constants` value pool. -/
structure ChunkG (V : Type) where
  code : List CByte
  lines : List Nat
  constants : List V
deriving Repr

/-- Heap string object (`ObjString` in `object.h`): identity `id` models
the heap pointer, `chars` the NUL-terminated buffer, `hash` the stored
32-bit hash. -/
structure ObjString where
  id : Nat
  chars : String
  hash : Nat
deriving DecidableEq, Repr

/-- `ObjFunction` from `object.h`, parametric in the value type to permit
the nested `Value` recursion through the constant pool. -/
structure ObjFunctionG (V : Type) where
  arity : Nat
  upvalueCount : Nat
  chunk : ChunkG V
  name : Option ObjString
deriving Repr

/-- The tagged `Value` union of `value.h`, with the heap-object variants of
`object.h` inlined.  Numbers are modelled as `Rat`.  Native objects are
identified by a handle into the VM's native environment; closures carry
their function and the handles of their upvalue cells. -/
inductive Value where
  | nil
  | bool (b : Bool)
  | number (x : Rat)
  | str (s : ObjString)
  | function (f : ObjFunctionG Value)
  | native (id : Nat)
  | closure (f : ObjFunctionG Value) (ups : List Nat)

/-- `IS_NIL` from `value.h`. -/
def isNilV : Value → Bool
  | .nil => true
  | _ => false

/-- `isFalsey` from `vm.c`: `nil` and `false` are falsey, all else truthy. -/
def isFalsey : Value → Bool
  | .nil => true
  | .bool b => !b
  | _ => false

/-! ## The hash table (`table.c`, given as an unnamed source file)

Transcribed bug-for-bug; in particular `adjustCapacity` performs
`dest->value = dest->value;` (so the re-inserted entries keep the freshly
initialised NIL value instead of the stored one) and never re-increments
`table->count` after resetting it to zero. -/

/-- A bucket of the table (`Entry` in `table.h`): key `NULL` is `none`. -/
structure Entry where
  key : Option ObjString
  value : Value

/-- The open-addressing table (`Table` in `table.h`). -/
structure Table where
  count : Nat
  capacity : Nat
  entries : List Entry

/-- `initTable`. -/
def initTable : Table := ⟨0, 0, []⟩

/-- Array indexing `entries[i]`; out-of-range reads (which well-formed
tables never perform) yield an empty bucket. -/
def entryAt (es : List Entry) (i : Nat) : Entry := es.getD i ⟨none, Value.nil⟩

/-- Modelled from the spec: `GROW_CAPACITY` of `memory.h` (not in the
tree): "grown geometrically from 8, doubling". -/
def growCapacity (c : Nat) : Nat := if c < 8 then 8 else 2 * c

/-- The probe loop of `findEntry` in `table.c`: probe from `index`,
remembering the first tombstone; stop at an empty bucket (returning the
remembered tombstone if any) or at the key.  The C loop has no bound and
no miss exit: it returns only on a truly empty bucket or a key hit.
Every use supplies `fuel = capacity`, which visits every bucket exactly
once (`probe_coverage`), so `none` here means the probe found neither a
truly empty bucket nor the key in a whole cycle — the state in which the
C loop never terminates.  All callers propagate `none` as divergence;
nothing treats it as a miss. -/
def findEntryAux (es : List Entry) (cap : Nat) (key : ObjString) :
    Nat → Nat → Option Nat → Option Nat
  | 0, _, _ => none
  | fuel + 1, index, tombstone =>
    let e := entryAt es index
    if e.key = none then
      if isNilV e.value then
        some (tombstone.getD index)
      else
        findEntryAux es cap key fuel ((index + 1) % cap)
          (tombstone.orElse fun _ => some index)
    else if e.key = some key then some index
    else findEntryAux es cap key fuel ((index + 1) % cap) tombstone

/-- `findEntry` from `table.c`: probe from `hash % capacity`.  Key
comparison `entry->key == key` is pointer equality, modelled by structural
equality of `ObjString` (handles are injectively identified by `id`). -/
def findEntry (es : List Entry) (cap : Nat) (key : ObjString) : Option Nat :=
  findEntryAux es cap key cap (key.hash % cap) none

/-- One iteration of the re-insertion loop of `adjustCapacity`: skip
buckets with `NULL` keys, else find the destination bucket in the new
array and write `dest->key = entry->key; dest->value = dest->value;` — the
value written is the destination's own (freshly initialised NIL) value,
transcribing the slip in the source.  A diverging probe (`findEntry`
exhausting its cycle) propagates as `none`; it cannot actually occur
here, since the fresh array is strictly larger than the number of
re-inserted entries. -/
def adjInsert (capacity : Nat) (acc : Option (List Entry)) (e : Entry) :
    Option (List Entry) :=
  match acc with
  | none => none
  | some acc =>
    match e.key with
    | none => some acc
    | some k =>
      match findEntry acc capacity k with
      | some i => some (acc.set i ⟨some k, (entryAt acc i).value⟩)
      | none => none

/-- `adjustCapacity` from `table.c`, transcribed with its two slips: the
value-copy slip in `adjInsert`, and `table->count`, reset to 0 before the
re-insertion loop, never being incremented again. -/
def adjustCapacity (t : Table) (capacity : Nat) : Option Table :=
  match t.entries.foldl (adjInsert capacity)
      (some (List.replicate capacity ⟨none, Value.nil⟩)) with
  | some es => some { count := 0, capacity := capacity, entries := es }
  | none => none

/-- The probe-and-write part of `tableSet` from `table.c`: find the bucket,
record whether the key is new (bucket key was `NULL`), bump `count` only
when the bucket was truly empty (not a tombstone), write the entry.
Returns (`isNewKey`, updated table).  The load check in `tableSet` proper,
`count + 1 > capacity * TABLE_MAX_LOAD` with `TABLE_MAX_LOAD = 0.75`, is
exact integer arithmetic (capacities are multiples of 4), encoded as
`4 * (count + 1) > 3 * capacity`. -/
def tableSetAt (t : Table) (key : ObjString) (value : Value) (i : Nat) : Bool × Table :=
  let e := entryAt t.entries i
  let isNewKey := e.key.isNone
  let count := if isNewKey && isNilV e.value then t.count + 1 else t.count
  (isNewKey, { t with count := count, entries := t.entries.set i ⟨some key, value⟩ })

/-- The probe-and-write of `tableSet`; `none` when the probe never
terminates (a full bucket array without the key). -/
def tableSetRaw (t : Table) (key : ObjString) (value : Value) :
    Option (Bool × Table) :=
  match findEntry t.entries t.capacity key with
  | none => none
  | some i => some (tableSetAt t key value i)

/-- `tableSet` from `table.c`: grow when the load check fires, then write
through the probed bucket (`tableSetRaw`); `none` when any probe on the
way never terminates (the C call hangs). -/
def tableSet (t : Table) (key : ObjString) (value : Value) :
    Option (Bool × Table) :=
  if 4 * (t.count + 1) > 3 * t.capacity then
    match adjustCapacity t (growCapacity t.capacity) with
    | some t2 => tableSetRaw t2 key value
    | none => none
  else tableSetRaw t key value

/-- Tombstoning step of `tableDelete`: on a bucket with a `NULL` key report
a miss, else write the tombstone (key `NULL`, value `true`); `count` is not
decremented. -/
def tableDeleteAt (t : Table) (i : Nat) : Bool × Table :=
  let e := entryAt t.entries i
  if e.key.isNone then (false, t)
  else (true, { t with entries := t.entries.set i ⟨none, Value.bool true⟩ })

/-- `tableDelete` from `table.c`; `none` when the probe never
terminates. -/
def tableDelete (t : Table) (key : ObjString) : Option (Bool × Table) :=
  if t.count = 0 then some (false, t)
  else
    match findEntry t.entries t.capacity key with
    | none => none
    | some i => some (tableDeleteAt t i)

/-- Read-out step of `tableGet`: miss on a bucket with a `NULL` key, else
yield the stored value. -/
def tableGetAt (t : Table) (i : Nat) : Option Value :=
  let e := entryAt t.entries i
  if e.key.isNone then none else some e.value

/-- `tableGet` from `table.c`: `some (some value)` on a hit,
`some none` on a miss (a `NULL`-key bucket), `none` when the probe never
terminates. -/
def tableGet (t : Table) (key : ObjString) : Option (Option Value) :=
  if t.count = 0 then some none
  else
    match findEntry t.entries t.capacity key with
    | none => none
    | some i => some (tableGetAt t i)

/-- The probe loop of `tableFindString` from `table.c`: locate an
existing interned string by length, hash and bytes (string content
equality models `length` + `memcmp`).  Like `findEntry`, the C loop
returns only on a truly empty bucket (miss, `some none` here) or a
content hit (`some (some k)`); running the whole cycle without either —
the fuel-0 case, `none` — is the state in which the C loop never
terminates. -/
def tableFindStringAux (es : List Entry) (cap : Nat) (chars : String) (hash : Nat) :
    Nat → Nat → Option (Option ObjString)
  | 0, _ => none
  | fuel + 1, index =>
    let e := entryAt es index
    match e.key with
    | none =>
      if isNilV e.value then some none
      else tableFindStringAux es cap chars hash fuel ((index + 1) % cap)
    | some k =>
      if k.hash = hash ∧ k.chars = chars then some (some k)
      else tableFindStringAux es cap chars hash fuel ((index + 1) % cap)

/-- `tableFindString` from `table.c`: `some (some k)` on a hit,
`some none` on a miss, `none` when the probe never terminates. -/
def tableFindString (t : Table) (chars : String) (hash : Nat) :
    Option (Option ObjString) :=
  if t.count = 0 then some none
  else tableFindStringAux t.entries t.capacity chars hash t.capacity (hash % t.capacity)

/-! ### Probe-path lemmas for the table -/

/-- A bucket occupied by a key other than `k` (the probe walks past it). -/
def occOther (k : ObjString) (e : Entry) : Prop := ∃ k', e.key = some k' ∧ k' ≠ k

/-- A truly empty bucket (key `NULL`, value `NIL`): the probe stops here. -/
def emptyBucket (e : Entry) : Prop := e.key = none ∧ isNilV e.value = true

/-- The shape under which the C probe loops terminate: the bucket array
has exactly `capacity` buckets and — unless the table is still the
capacity-0 `initTable` — at least one bucket is truly empty.  The
program does NOT always maintain this: `adjustCapacity` resets `count`
to 0 and never restores it, so after the 8→16 growth the load check can
no longer fire and all 16 buckets can fill up.  `WfTable` is therefore a
hypothesis of the helper rollback theorems below, not an invariant. -/
structure WfTable (t : Table) : Prop where
  len : t.entries.length = t.capacity
  emptyOrZero : t.capacity = 0 ∨ ∃ i < t.capacity, emptyBucket (entryAt t.entries i)

/-- A bucket holding a key. -/
def occB (e : Entry) : Bool := e.key.isSome


/-! ## The virtual machine (`vm.c`) -/

/-- Modelled from the spec: `FRAMES_MAX` from `vm.h` (not in the tree) is 64. -/
def FRAMES_MAX : Nat := 64

/-- Modelled from the spec: `STACK_MAX = FRAMES_MAX * UINT8_COUNT`
(= 64 * 256 = 16384) from `vm.h` (not in the tree). -/
def STACK_MAX : Nat := FRAMES_MAX * 256

/-- Modelled from the spec: the FNV-1a hash of `object.c` (not in the
tree); 32-bit arithmetic kept exact with an explicit modulus.  (Claims do
not depend on particular hash values.) -/
def hashString (str : String) : Nat :=
  str.data.foldl (fun h c => ((h ^^^ c.toNat) * 16777619) % 4294967296) 2166136261

/-- State of a heap upvalue cell (`ObjUpvalue`): `openAt i` models
`location` pointing at absolute value-stack slot `i` (stack addresses grow
with the index); `closedWith v` models `location == &closed` with
`closed = v`. -/
inductive UpState where
  | openAt (loc : Nat)
  | closedWith (v : Value)

/-- A `CallFrame` from `vm.h`: executing closure (function + upvalue
handles), instruction pointer as an index into the function's code, and
the absolute stack index of the frame's slot window. -/
structure CallFrame where
  fn : ObjFunctionG Value
  ups : List Nat
  ip : Nat
  slots : Nat

/-- The `VM` global of `vm.c`.  The stack is bottom-first; `frames` keeps
the most recent frame first (`vm.frames[vm.frameCount - 1]` is the head);
the upvalue heap is an association list keyed by handle; `openUpvalues`
is the intrusive sorted list of open-upvalue handles; `nativeEnv` gives
the semantics of native handles (C function pointers). -/
structure VMState where
  stack : List Value
  frames : List CallFrame
  upvalues : List (Nat × UpState)
  openUpvalues : List Nat
  globals : Table
  strings : Table
  nextId : Nat
  nativeEnv : Nat → Nat → List Value → Value
  output : List Value

/-- Dereference an upvalue handle in the heap. -/
def lookupUp (heap : List (Nat × UpState)) (uid : Nat) : Option UpState :=
  (heap.find? (fun p => p.1 = uid)).map Prod.snd

/-- Overwrite an upvalue cell in the heap. -/
def updateUp : List (Nat × UpState) → Nat → UpState → List (Nat × UpState)
  | [], _, _ => []
  | p :: ps, uid, st => (if p.1 = uid then (uid, st) else p) :: updateUp ps uid st

/-- The stack location of an open upvalue (`none` for closed cells: their
`location` points into their own `closed` field, never at the stack). -/
def locOf (heap : List (Nat × UpState)) (uid : Nat) : Option Nat :=
  match lookupUp heap uid with
  | some (.openAt l) => some l
  | _ => none

/-- `locOf` with a default, for the pointer comparison
`upvalue->location > local` in `captureUpvalue` (on a closed cell C would
compare a heap address; the invariant keeps closed cells out of the open
list, and the default 0 stops the walk deterministically). -/
def locOfD (heap : List (Nat × UpState)) (uid : Nat) : Nat :=
  (locOf heap uid).getD 0

/-- The walk of `captureUpvalue`: split the open list into the prefix of
upvalues with `location > local` and the rest. -/
def captureWalk (heap : List (Nat × UpState)) (localSlot : Nat) :
    List Nat → List Nat × List Nat
  | [] => ([], [])
  | uid :: rest =>
    if localSlot < locOfD heap uid then
      let p := captureWalk heap localSlot rest
      (uid :: p.1, p.2)
    else ([], uid :: rest)

/-- `resetStack` from `vm.c`: empty the value stack and frame stack and
clear the open-upvalue list; the heap, globals and strings survive. -/
def resetStackS (s : VMState) : VMState :=
  { s with stack := [], frames := [], openUpvalues := [] }

/-- `captureUpvalue` from `vm.c`: walk the (descending) open list past
locations above the captured one; reuse the node with the same location if present,
else insert a fresh open upvalue there.  Returns the handle and the new
state. -/
def captureUpvalue (localSlot : Nat) (s : VMState) : Nat × VMState :=
  let p := captureWalk s.upvalues localSlot s.openUpvalues
  let reuse : Option Nat :=
    match p.2 with
    | uid :: _ => if locOf s.upvalues uid = some localSlot then some uid else none
    | [] => none
  match reuse with
  | some uid => (uid, s)
  | none =>
    let uid := s.nextId
    (uid, { s with
      upvalues := (uid, UpState.openAt localSlot) :: s.upvalues,
      openUpvalues := p.1 ++ uid :: p.2,
      nextId := s.nextId + 1 })

/-- The loop of `closeUpvalues` from `vm.c`: while the head of the open
list has `location ≥ last`, copy the stack slot into `closed`, repoint the
cell at itself, and unlink it. -/
def closeUpvaluesAux (last : Nat) (stack : List Value) :
    List Nat → List (Nat × UpState) → List Nat × List (Nat × UpState)
  | [], heap => ([], heap)
  | uid :: rest, heap =>
    match lookupUp heap uid with
    | some (.openAt loc) =>
      if last ≤ loc then
        closeUpvaluesAux last stack rest
          (updateUp heap uid (.closedWith (stack.getD loc Value.nil)))
      else (uid :: rest, heap)
    | _ => (uid :: rest, heap)

/-- `closeUpvalues` from `vm.c`. -/
def closeUpvalues (last : Nat) (s : VMState) : VMState :=
  let p := closeUpvaluesAux last s.stack s.openUpvalues s.upvalues
  { s with openUpvalues := p.1, upvalues := p.2 }

/-- Modelled from the spec: `valuesEqual` from `value.c` (not in the
tree): same-type comparison by value for primitives, by interned handle
for strings.  Handle identity of function/closure objects is not tracked
here (no claim depends on it); such comparisons yield `false`. -/
def valuesEqual : Value → Value → Bool
  | .nil, .nil => true
  | .bool a, .bool b => a == b
  | .number a, .number b => a == b
  | .str a, .str b => a.id == b.id
  | .native a, .native b => a == b
  | _, _ => false

/-- Modelled from the spec: `takeString` from `object.c` (not in the
tree): look the byte sequence up in the interning pool (`tableFindString`)
and reuse the existing string, else allocate a fresh `ObjString` and
record it in the pool with a `nil` value. -/
def takeString (chars : String) (s : VMState) : Option (ObjString × VMState) :=
  match tableFindString s.strings chars (hashString chars) with
  | none => none
  | some (some interned) => some (interned, s)
  | some none =>
    match tableSet s.strings ⟨s.nextId, chars, hashString chars⟩ Value.nil with
    | none => none
    | some p =>
      some (⟨s.nextId, chars, hashString chars⟩,
        { s with
            nextId := s.nextId + 1
            strings := p.2 })

/-- C cast `(int)x` on a double: truncation toward zero. -/
def truncInt (x : Rat) : Int := Int.tdiv x.num x.den

/-- `call` from `vm.c`: arity check, frame-count check, then push a frame
whose `slots` window starts at the callee's stack slot. -/
def callFn (f : ObjFunctionG Value) (ups : List Nat) (argCount : Nat)
    (s : VMState) : Except String VMState :=
  if argCount ≠ f.arity then
    .error ("Expected " ++ toString f.arity ++ " arguments but got " ++
      toString argCount ++ ".")
  else if s.frames.length = FRAMES_MAX then
    .error "Stack overflow."
  else
    .ok { s with frames :=
      ⟨f, ups, 0, s.stack.length - argCount - 1⟩ :: s.frames }

/-- `callValue` from `vm.c`: closures go through `call`; natives are
invoked in place (no arity check, no frame) with the argument window, the
callee and arguments are removed, and the returned value pushed; anything
else is a runtime error. -/
def callValue (callee : Value) (argCount : Nat) (s : VMState) :
    Except String VMState :=
  match callee with
  | .closure f ups => callFn f ups argCount s
  | .native nid =>
    let args := s.stack.drop (s.stack.length - argCount)
    let result := s.nativeEnv nid argCount args
    .ok { s with stack := s.stack.take (s.stack.length - (argCount + 1)) ++ [result] }
  | _ => .error "Can only call functions and classes."

/-- Result of one dispatch iteration of `run`:  `ok` continues, `err` is
`runtimeError` (message plus the state after `resetStack`; globals,
strings and the upvalue heap survive), `halt` is the `INTERPRET_OK` return
(or a stuck fetch, which compiled code never produces), and `spin` is an
opcode whose table probe never terminates — the C `run` loop hangs
forever inside `findEntry`/`tableFindString` (reachable, because
`adjustCapacity` resets `count` and the load check then stops firing).
The state recorded in `spin` is the state at entry to the opcode. -/
inductive StepRes where
  | ok (s : VMState)
  | err (msg : String) (s : VMState)
  | halt (s : VMState)
  | spin (s : VMState)

/-- `peek` from `vm.c` (distance from the top). -/
def peekV (s : VMState) (d : Nat) : Value :=
  s.stack.getD (s.stack.length - 1 - d) Value.nil

/-- `push` from `vm.c`: store at the top cursor and advance it — no bounds
check in the source. -/
def pushV (s : VMState) (v : Value) : VMState :=
  { s with stack := s.stack ++ [v] }

/-- Read an operand byte. -/
def readArg (code : List CByte) (i : Nat) : Option Nat :=
  match code.get? i with
  | some (.arg n) => some n
  | _ => none

/-- The operand loop of `OP_CLOSURE`: read `(isLocal, index)` pairs,
capturing locals through `captureUpvalue` and inheriting the rest from the
enclosing closure.  Returns the upvalue handles, the ip past the operands,
and the updated state. -/
def closureCapture (f : CallFrame) (code : List CByte) :
    Nat → Nat → VMState → List Nat → Option (List Nat × Nat × VMState)
  | 0, ip, s, acc => some (acc.reverse, ip, s)
  | n + 1, ip, s, acc =>
    match readArg code ip, readArg code (ip + 1) with
    | some isLocal, some index =>
      if isLocal ≠ 0 then
        let p := captureUpvalue (f.slots + index) s
        closureCapture f code n (ip + 2) p.2 (p.1 :: acc)
      else
        closureCapture f code n (ip + 2) s (f.ups.getD index 0 :: acc)
    | _, _ => none

/-- Replace the current frame's ip. -/
def setIp (f : CallFrame) (fs : List CallFrame) (s : VMState) (ip : Nat) : VMState :=
  { s with frames := { f with ip := ip } :: fs }

/-- `runtimeError` from `vm.c`: report the message and reset the stacks. -/
def runtimeErr (msg : String) (s : VMState) : StepRes :=
  .err msg (resetStackS s)

/-- The `BINARY_OP` macro of `vm.c` for a numeric operator: type-check the
two top slots, pop them, push the combined value. -/
def binNum (f : CallFrame) (fs : List CallFrame) (s : VMState)
    (g : Rat → Rat → Value) : StepRes :=
  match peekV s 0, peekV s 1 with
  | .number b, .number a =>
    .ok { setIp f fs s (f.ip + 1) with
      stack := s.stack.dropLast.dropLast ++ [g a b] }
  | _, _ => runtimeErr "Operands must be numbers." s

/-- One opcode of the dispatch switch in `run` (`vm.c`), executed with
`f` the current frame (already fetched at `f.ip`) and `fs` the rest of
the frame stack. -/
def execOp (o : OpCode) (f : CallFrame) (fs : List CallFrame) (s : VMState) : StepRes :=
  match o with
  | .CONSTANT =>
    match readArg f.fn.chunk.code (f.ip + 1) with
    | some b =>
      .ok (pushV (setIp f fs s (f.ip + 2)) (f.fn.chunk.constants.getD b Value.nil))
    | none => .halt s
  | .NIL => .ok (pushV (setIp f fs s (f.ip + 1)) Value.nil)
  | .TRUE => .ok (pushV (setIp f fs s (f.ip + 1)) (Value.bool true))
  | .FALSE => .ok (pushV (setIp f fs s (f.ip + 1)) (Value.bool false))
  | .POP => .ok { setIp f fs s (f.ip + 1) with stack := s.stack.dropLast }
  | .GET_LOCAL =>
    match readArg f.fn.chunk.code (f.ip + 1) with
    | some slot =>
      .ok (pushV (setIp f fs s (f.ip + 2)) (s.stack.getD (f.slots + slot) Value.nil))
    | none => .halt s
  | .SET_LOCAL =>
    match readArg f.fn.chunk.code (f.ip + 1) with
    | some slot =>
      .ok { setIp f fs s (f.ip + 2) with
        stack := s.stack.set (f.slots + slot) (peekV s 0) }
    | none => .halt s
  | .GET_GLOBAL =>
    match readArg f.fn.chunk.code (f.ip + 1) with
    | some b =>
      match f.fn.chunk.constants.getD b Value.nil with
      | .str name =>
        match tableGet s.globals name with
        | some (some v) => .ok (pushV (setIp f fs s (f.ip + 2)) v)
        | some none => runtimeErr ("Undefined variable '" ++ name.chars ++ "'.") s
        | none => .spin s
      | _ => .halt s
    | none => .halt s
  | .DEFINE_GLOBAL =>
    match readArg f.fn.chunk.code (f.ip + 1) with
    | some b =>
      match f.fn.chunk.constants.getD b Value.nil with
      | .str name =>
        match tableSet s.globals name (peekV s 0) with
        | some p =>
          .ok { setIp f fs s (f.ip + 2) with
            globals := p.2, stack := s.stack.dropLast }
        | none => .spin s
      | _ => .halt s
    | none => .halt s
  | .SET_GLOBAL =>
    match readArg f.fn.chunk.code (f.ip + 1) with
    | some b =>
      match f.fn.chunk.constants.getD b Value.nil with
      | .str name =>
        match tableSet s.globals name (peekV s 0) with
        | some p =>
          if p.1 then
            match tableDelete p.2 name with
            | some q =>
              runtimeErr ("Undefined variable '" ++ name.chars ++ "'.")
                { s with globals := q.2 }
            | none => .spin { s with globals := p.2 }
          else
            .ok { setIp f fs s (f.ip + 2) with globals := p.2 }
        | none => .spin s
      | _ => .halt s
    | none => .halt s
  | .GET_UPVALUE =>
    match readArg f.fn.chunk.code (f.ip + 1) with
    | some slot =>
      let uid := f.ups.getD slot 0
      let v :=
        match lookupUp s.upvalues uid with
        | some (.openAt l) => s.stack.getD l Value.nil
        | some (.closedWith v) => v
        | none => Value.nil
      .ok (pushV (setIp f fs s (f.ip + 2)) v)
    | none => .halt s
  | .SET_UPVALUE =>
    match readArg f.fn.chunk.code (f.ip + 1) with
    | some slot =>
      let uid := f.ups.getD slot 0
      let v := peekV s 0
      match lookupUp s.upvalues uid with
      | some (.openAt l) =>
        .ok { setIp f fs s (f.ip + 2) with stack := s.stack.set l v }
      | some (.closedWith _) =>
        .ok { setIp f fs s (f.ip + 2) with
          upvalues := updateUp s.upvalues uid (.closedWith v) }
      | none => .halt s
    | none => .halt s
  | .EQUAL =>
    let b := peekV s 0
    let a := peekV s 1
    .ok { setIp f fs s (f.ip + 1) with
      stack := s.stack.dropLast.dropLast ++ [Value.bool (valuesEqual a b)] }
  | .GREATER => binNum f fs s (fun a b => Value.bool (decide (b < a)))
  | .LESS => binNum f fs s (fun a b => Value.bool (decide (a < b)))
  | .ADD =>
    match peekV s 0, peekV s 1 with
    | .str sb, .str sa =>
      match takeString (sa.chars ++ sb.chars) s with
      | some p =>
        .ok { setIp f fs p.2 (f.ip + 1) with
          stack := s.stack.dropLast.dropLast ++ [Value.str p.1] }
      | none => .spin s
    | .number b, .number a =>
      .ok { setIp f fs s (f.ip + 1) with
        stack := s.stack.dropLast.dropLast ++ [Value.number (a + b)] }
    | _, _ => runtimeErr "Operands must be two numbers of two strings." s
  | .SUBTRACT => binNum f fs s (fun a b => Value.number (a - b))
  | .MULTIPLY => binNum f fs s (fun a b => Value.number (a * b))
  | .DIVIDE => binNum f fs s (fun a b => Value.number (a / b))
  | .INT_DIVIDE => binNum f fs s (fun a b => Value.number ((Int.tdiv (truncInt a) (truncInt b) : Int) : Rat))
  | .MODULUS => binNum f fs s (fun a b => Value.number (a - ((truncInt (a / b) : Int) : Rat) * b))
  | .NOT =>
    .ok { setIp f fs s (f.ip + 1) with
      stack := s.stack.dropLast ++ [Value.bool (isFalsey (peekV s 0))] }
  | .NEGATE =>
    match peekV s 0 with
    | .number x =>
      .ok { setIp f fs s (f.ip + 1) with
        stack := s.stack.dropLast ++ [Value.number (-x)] }
    | _ => runtimeErr "Operand must be a number." s
  | .PRINT =>
    .ok { setIp f fs s (f.ip + 1) with
      stack := s.stack.dropLast, output := s.output ++ [peekV s 0] }
  | .JUMP =>
    match readArg f.fn.chunk.code (f.ip + 1), readArg f.fn.chunk.code (f.ip + 2) with
    | some b1, some b2 =>
      .ok (setIp f fs s (f.ip + 3 + (b1 * 256 + b2)))
    | _, _ => .halt s
  | .JUMP_IF_FALSE =>
    match readArg f.fn.chunk.code (f.ip + 1), readArg f.fn.chunk.code (f.ip + 2) with
    | some b1, some b2 =>
      if isFalsey (peekV s 0) then
        .ok (setIp f fs s (f.ip + 3 + (b1 * 256 + b2)))
      else
        .ok (setIp f fs s (f.ip + 3))
    | _, _ => .halt s
  | .LOOP =>
    match readArg f.fn.chunk.code (f.ip + 1), readArg f.fn.chunk.code (f.ip + 2) with
    | some b1, some b2 =>
      .ok (setIp f fs s (f.ip + 3 - (b1 * 256 + b2)))
    | _, _ => .halt s
  | .CALL =>
    match readArg f.fn.chunk.code (f.ip + 1) with
    | some argc =>
      match callValue (peekV s argc) argc (setIp f fs s (f.ip + 2)) with
      | .ok s' => .ok s'
      | .error msg => runtimeErr msg s
    | none => .halt s
  | .CLOSURE =>
    match readArg f.fn.chunk.code (f.ip + 1) with
    | some b =>
      match f.fn.chunk.constants.getD b Value.nil with
      | .function fn =>
        match closureCapture f f.fn.chunk.code fn.upvalueCount (f.ip + 2) s [] with
        | some p =>
          .ok (pushV (setIp f fs p.2.2 p.2.1) (Value.closure fn p.1))
        | none => .halt s
      | _ => .halt s
    | none => .halt s
  | .CLOSE_UPVALUE =>
    let s' := closeUpvalues (s.stack.length - 1) s
    .ok { setIp f fs s' (f.ip + 1) with stack := s'.stack.dropLast }
  | .RETURN =>
    -- C pops the result, then closes upvalues at the frame base; the pop
    -- only moves the top cursor, so the closing reads are unaffected —
    -- closing before popping is observationally the same here.
    let result := peekV s 0
    let s1 := closeUpvalues f.slots s
    if fs.isEmpty then
      .halt { s1 with frames := [], stack := s1.stack.dropLast.dropLast }
    else
      .ok { s1 with frames := fs, stack := s1.stack.take f.slots ++ [result] }

/-- One iteration of the dispatch loop of `run` (`vm.c`): fetch the byte
at the current frame's ip and execute it.  A missing frame or a fetch that
is not an opcode (never produced by compiled code) halts. -/
def step (s : VMState) : StepRes :=
  match s.frames with
  | [] => .halt s
  | f :: fs =>
    match f.fn.chunk.code.get? f.ip with
    | some (.op o) => execOp o f fs s
    | _ => .halt s

/-- Iterate `step` while it keeps succeeding. -/
def runSteps : Nat → VMState → StepRes
  | 0, s => .ok s
  | n + 1, s =>
    match step s with
    | .ok s' => runSteps n s'
    | r => r

/-- The state `interpret` (`vm.c`) hands to `run` for a compiled top-level
function: wrap it in a zero-upvalue closure, push it, and install the
initial frame via `call(closure, 0)` (slots window at stack slot 0).
`initVM`'s native registration only seeds the globals and strings tables,
which are irrelevant to the stack-bound arguments below, so the tables
start empty here. -/
def scriptStart (fn : ObjFunctionG Value) : VMState :=
  { stack := [Value.closure fn []],
    frames := [⟨fn, [], 0, 0⟩],
    upvalues := [], openUpvalues := [],
    globals := initTable, strings := initTable,
    nextId := 0,
    nativeEnv := fun _ _ _ => Value.nil,
    output := [] }

/-! ## The compiler (`compiler.c`)

The `compiler.c` in the tree is transcribed as it stands: a Pratt
expression parser over global variables only — `namedVariable` emits
`OP_GET_GLOBAL` unconditionally, there is no local/upvalue resolution, no
assignment path, and `endCompiler`'s `emitReturn` emits a bare
`OP_RETURN`; `compile` fills a caller-provided chunk and returns a success
flag.  The scanner is an external collaborator (spec section 4.3): the
compiler consumes a token list; number tokens carry the `strtod` value of
their lexeme. -/

inductive TokenType where
  | leftParen | rightParen | leftBrace | rightBrace
  | comma | dot | minus | plus | semicolon | slash | star
  | bang | bangEqual | equal | equalEqual
  | greater | greaterEqual | less | lessEqual
  | identifier | stringLit | number
  | andK | classK | elseK | falseK | forK | funK | ifK | nilK | orK
  | printK | returnK | superK | thisK | trueK | varK | whileK
  | errorT | eof
deriving DecidableEq, Repr

/-- A scanner token: type tag, lexeme (a slice of the source in C), the
`strtod` value for number tokens, and the source line. -/
structure Token where
  ttype : TokenType
  lexeme : String
  numVal : Rat
  line : Nat
deriving Repr

/-- The token the scanner yields at (and beyond) the end of input. -/
def mkEof : Token := ⟨.eof, "", 0, 0⟩

/-- The `Precedence` enum, as numbers so that `rule->precedence + 1`
stays literal. -/
def PREC_NONE : Nat := 0
def PREC_ASSIGNMENT : Nat := 1
def PREC_OR : Nat := 2
def PREC_AND : Nat := 3
def PREC_EQUALITY : Nat := 4
def PREC_COMPARISON : Nat := 5
def PREC_TERM : Nat := 6
def PREC_FACTOR : Nat := 7
def PREC_UNARY : Nat := 8
def PREC_CALL : Nat := 9
def PREC_PRIMARY : Nat := 10

/-- Tags for the prefix parse functions appearing in `rules[]`. -/
inductive PrefixFn where
  | grouping | numberP | stringP | literalP | variableP | unaryP
deriving DecidableEq, Repr

/-- Tags for the infix parse functions appearing in `rules[]` (`binary`
is the only one in this compiler). -/
inductive InfixFn where
  | binary
deriving DecidableEq, Repr

/-- The `rules[]` Pratt table from `compiler.c`, row for row. -/
def getRule : TokenType → Option PrefixFn × Option InfixFn × Nat
  | .leftParen => (some .grouping, none, PREC_NONE)
  | .minus => (some .unaryP, some .binary, PREC_TERM)
  | .plus => (none, some .binary, PREC_TERM)
  | .slash => (none, some .binary, PREC_FACTOR)
  | .star => (none, some .binary, PREC_FACTOR)
  | .bang => (some .unaryP, none, PREC_NONE)
  | .bangEqual => (none, some .binary, PREC_EQUALITY)
  | .equalEqual => (none, some .binary, PREC_EQUALITY)
  | .greater => (none, some .binary, PREC_COMPARISON)
  | .greaterEqual => (none, some .binary, PREC_COMPARISON)
  | .less => (none, some .binary, PREC_COMPARISON)
  | .lessEqual => (none, some .binary, PREC_COMPARISON)
  | .identifier => (some .variableP, none, PREC_NONE)
  | .stringLit => (some .stringP, none, PREC_NONE)
  | .number => (some .numberP, none, PREC_NONE)
  | .falseK => (some .literalP, none, PREC_NONE)
  | .nilK => (some .literalP, none, PREC_NONE)
  | .trueK => (some .literalP, none, PREC_NONE)
  | _ => (none, none, PREC_NONE)

/-- The compiler's state: the `Parser` globals (`previous`, `current`,
`hadError`, `panicMode`), the remaining token stream, the chunk being
filled, the compile-time interning of identifier/string constants
(`copyString` into the strings table, modelled from the spec), and the
diagnostics issued so far. -/
structure CompState where
  previous : Token
  current : Token
  rest : List Token
  hadError : Bool
  panicMode : Bool
  chunk : ChunkG Value
  interned : List (String × Nat)
  nextStr : Nat
  errors : List String

/-- `errorAt` from `compiler.c`: suppressed in panic mode, else record the
diagnostic and set the sticky error flag and panic mode. -/
def errorAtTok (_tok : Token) (msg : String) (s : CompState) : CompState :=
  if s.panicMode then s
  else { s with panicMode := true, hadError := true, errors := s.errors ++ [msg] }

/-- `error` from `compiler.c` (at the previous token). -/
def errorP (msg : String) (s : CompState) : CompState := errorAtTok s.previous msg s

/-- `errorAtCurrent` from `compiler.c`. -/
def errorAtCurrent (msg : String) (s : CompState) : CompState := errorAtTok s.current msg s

/-- Modelling artifact: parser fuel ran out (never happens at the fuel the
theorems supply).  Conservatively poisons `hadError` so that no acceptance
is ever proved through fuel exhaustion. -/
def noFuel (s : CompState) : CompState :=
  { s with hadError := true, errors := s.errors ++ ["fuel"] }

/-- The scan loop of `advance`: install the next token as `current`,
reporting and skipping `ERROR` tokens (their lexeme is the message); an
exhausted stream yields `EOF` forever. -/
def advanceLoop : CompState → List Token → CompState
  | s, [] => { s with current := mkEof, rest := [] }
  | s, t :: ts =>
    let s := { s with current := t, rest := ts }
    if t.ttype = .errorT then advanceLoop (errorAtCurrent t.lexeme s) ts else s

/-- `advance` from `compiler.c`. -/
def advance (s : CompState) : CompState :=
  advanceLoop { s with previous := s.current } s.rest

/-- `consume` from `compiler.c`. -/
def consume (t : TokenType) (msg : String) (s : CompState) : CompState :=
  if s.current.ttype = t then advance s else errorAtCurrent msg s

/-- `match` from `compiler.c` (`match` is reserved in Lean). -/
def matchTok (t : TokenType) (s : CompState) : Bool × CompState :=
  if s.current.ttype = t then (true, advance s) else (false, s)

/-- Modelled from the spec: `writeChunk` of the full `chunk.c` (the tree's
`chunk.c` is an earlier revision without the `lines` array, while
`compiler.c` calls the three-argument interface): append the byte and the
line in lock-step. -/
def writeChunkC (c : ChunkG Value) (b : CByte) (line : Nat) : ChunkG Value :=
  { c with code := c.code ++ [b], lines := c.lines ++ [line] }

/-- Modelled from the spec: `addConstant` of the full `chunk.c`: append
and return the index. -/
def addConstant (c : ChunkG Value) (v : Value) : ChunkG Value × Nat :=
  ({ c with constants := c.constants ++ [v] }, c.constants.length)

/-- `emitByte` from `compiler.c` (writes at the previous token's line). -/
def emitByte (b : CByte) (s : CompState) : CompState :=
  { s with chunk := writeChunkC s.chunk b s.previous.line }

/-- `emitBytes` from `compiler.c`. -/
def emitBytes (b1 b2 : CByte) (s : CompState) : CompState :=
  emitByte b2 (emitByte b1 s)

/-- `emitReturn` from `compiler.c`: a bare `OP_RETURN`. -/
def emitReturn (s : CompState) : CompState := emitByte (.op .RETURN) s

/-- `makeConstant` from `compiler.c`: the constant is appended first; an
index beyond `UINT8_MAX` is a compile error and yields index 0. -/
def makeConstant (v : Value) (s : CompState) : Nat × CompState :=
  let p := addConstant s.chunk v
  if p.2 > 255 then (0, errorP "Too many constants in one chunk." { s with chunk := p.1 })
  else (p.2, { s with chunk := p.1 })

/-- `emitConstant` from `compiler.c`. -/
def emitConstant (v : Value) (s : CompState) : CompState :=
  let p := makeConstant v s
  emitBytes (.op .CONSTANT) (.arg p.1) p.2

/-- Modelled from the spec: `copyString` of `object.c` at compile time —
equal byte sequences yield the same interned handle. -/
def copyStringC (chars : String) (s : CompState) : ObjString × CompState :=
  match s.interned.find? (fun p => p.1 = chars) with
  | some p => (⟨p.2, chars, hashString chars⟩, s)
  | none =>
    (⟨s.nextStr, chars, hashString chars⟩,
      { s with interned := (chars, s.nextStr) :: s.interned, nextStr := s.nextStr + 1 })

/-- `identifierConstant` from `compiler.c`: intern the lexeme, add it to
the constant pool as a string value, return the index. -/
def identifierConstant (name : Token) (s : CompState) : Nat × CompState :=
  let p := copyStringC name.lexeme s
  makeConstant (Value.str p.1) p.2

/-- `namedVariable` from `compiler.c` (lines 285–288): every identifier
reference emits `OP_GET_GLOBAL` with the name's constant index — there is
no local or upvalue resolution and no SET path in this revision. -/
def namedVariable (name : Token) (s : CompState) : CompState :=
  let p := identifierConstant name s
  emitBytes (.op .GET_GLOBAL) (.arg p.1) p.2

/-- `number` from `compiler.c`: the token's `strtod` value as a constant. -/
def numberFn (s : CompState) : CompState :=
  emitConstant (Value.number s.previous.numVal) s

/-- `string` from `compiler.c`: strip the surrounding quotes from the
lexeme, intern, emit as a constant. -/
def stringFn (s : CompState) : CompState :=
  let chars := (s.previous.lexeme.drop 1).dropRight 1
  let p := copyStringC chars s
  emitConstant (Value.str p.1) p.2

/-- `literal` from `compiler.c`. -/
def literalFn (s : CompState) : CompState :=
  match s.previous.ttype with
  | .falseK => emitByte (.op .FALSE) s
  | .nilK => emitByte (.op .NIL) s
  | .trueK => emitByte (.op .TRUE) s
  | _ => s

/-- `variable` from `compiler.c` (`variable` is reserved in Lean). -/
def variableFn (s : CompState) : CompState :=
  namedVariable s.previous s

mutual

/-- `parsePrecedence` from `compiler.c`: advance, run the previous
token's prefix rule (error "Expect expression." when there is none), then
fold infix rules while the current token's precedence admits them. -/
def parsePrecedence : Nat → Nat → CompState → CompState
  | 0, _, s => noFuel s
  | fuel + 1, prec, s =>
    let s := advance s
    match (getRule s.previous.ttype).1 with
    | none => errorP "Expect expression." s
    | some pfn => infixLoop fuel prec (runPrefix fuel pfn s)

/-- Dispatch a prefix rule tag from `rules[]`. -/
def runPrefix : Nat → PrefixFn → CompState → CompState
  | 0, _, s => noFuel s
  | fuel + 1, pfn, s =>
    match pfn with
    | .grouping => groupingFn fuel s
    | .numberP => numberFn s
    | .stringP => stringFn s
    | .literalP => literalFn s
    | .variableP => variableFn s
    | .unaryP => unaryFn fuel s

/-- `grouping` from `compiler.c`. -/
def groupingFn : Nat → CompState → CompState
  | 0, s => noFuel s
  | fuel + 1, s =>
    consume .rightParen "Expect ')' after expression."
      (parsePrecedence fuel PREC_ASSIGNMENT s)

/-- `unary` from `compiler.c`: operand at `PREC_UNARY`, then the operator. -/
def unaryFn : Nat → CompState → CompState
  | 0, s => noFuel s
  | fuel + 1, s =>
    let operatorType := s.previous.ttype
    let s := parsePrecedence fuel PREC_UNARY s
    match operatorType with
    | .bang => emitByte (.op .NOT) s
    | .minus => emitByte (.op .NEGATE) s
    | _ => s

/-- `binary` from `compiler.c` (lines 150–168): right operand at one
precedence level above the operator's own, then the operator's opcode
sequence (`!=` as EQUAL, NOT; `>=` as LESS, NOT; `<=` as GREATER, NOT). -/
def binaryFn : Nat → CompState → CompState
  | 0, s => noFuel s
  | fuel + 1, s =>
    let operatorType := s.previous.ttype
    let rulePrec := (getRule operatorType).2.2
    let s := parsePrecedence fuel (rulePrec + 1) s
    match operatorType with
    | .bangEqual => emitBytes (.op .EQUAL) (.op .NOT) s
    | .equalEqual => emitByte (.op .EQUAL) s
    | .greater => emitByte (.op .GREATER) s
    | .greaterEqual => emitBytes (.op .LESS) (.op .NOT) s
    | .less => emitByte (.op .LESS) s
    | .lessEqual => emitBytes (.op .GREATER) (.op .NOT) s
    | .plus => emitByte (.op .ADD) s
    | .minus => emitByte (.op .SUBTRACT) s
    | .star => emitByte (.op .MULTIPLY) s
    | .slash => emitByte (.op .DIVIDE) s
    | _ => s

/-- The while-loop of `parsePrecedence`.  (A token with no infix rule has
precedence `PREC_NONE = 0`, and every call site passes a precedence of at
least `PREC_ASSIGNMENT = 1`, so the `none` branch is unreachable; the C
code would call a null pointer there.) -/
def infixLoop : Nat → Nat → CompState → CompState
  | 0, _, s => noFuel s
  | fuel + 1, prec, s =>
    if prec ≤ (getRule s.current.ttype).2.2 then
      let s := advance s
      match (getRule s.previous.ttype).2.1 with
      | some .binary => infixLoop fuel prec (binaryFn fuel s)
      | none => noFuel s
    else s

end

/-- `expression` from `compiler.c`. -/
def expressionC (fuel : Nat) (s : CompState) : CompState :=
  parsePrecedence fuel PREC_ASSIGNMENT s

/-- `expressionStatement` from `compiler.c`. -/
def expressionStatement (fuel : Nat) (s : CompState) : CompState :=
  emitByte (.op .POP)
    (consume .semicolon "Expect ';' after expression." (expressionC fuel s))

/-- `printStatement` from `compiler.c`. -/
def printStatement (fuel : Nat) (s : CompState) : CompState :=
  emitByte (.op .PRINT)
    (consume .semicolon "Expect ';' after value." (expressionC fuel s))

/-- `parseVariable` from `compiler.c`. -/
def parseVariable (errorMessage : String) (s : CompState) : Nat × CompState :=
  let s := consume .identifier errorMessage s
  identifierConstant s.previous s

/-- `defineVariable` from `compiler.c`: globals only in this revision. -/
def defineVariable (global : Nat) (s : CompState) : CompState :=
  emitBytes (.op .DEFINE_GLOBAL) (.arg global) s

/-- `varDecleration` from `compiler.c` (spelling kept from the source). -/
def varDecleration (fuel : Nat) (s : CompState) : CompState :=
  let p := parseVariable "Expect variable name." s
  let pm := matchTok .equal p.2
  let s := if pm.1 then expressionC fuel pm.2 else emitByte (.op .NIL) pm.2
  defineVariable p.1 (consume .semicolon "Expect ';' after variable decleration." s)

/-- `statement` from `compiler.c`: `print` or an expression statement. -/
def statementC (fuel : Nat) (s : CompState) : CompState :=
  let p := matchTok .printK s
  if p.1 then printStatement fuel p.2 else expressionStatement fuel p.2

/-- The loop of `synchronize` from `compiler.c`. -/
def synchronizeAux : Nat → CompState → CompState
  | 0, s => s
  | fuel + 1, s =>
    if s.current.ttype = .eof then s
    else if s.previous.ttype = .semicolon then s
    else
      match s.current.ttype with
      | .classK | .funK | .varK | .forK | .ifK | .whileK | .printK | .returnK => s
      | _ => synchronizeAux fuel (advance s)

/-- `synchronize` from `compiler.c`: clear panic mode and skip to a
statement boundary.  `rest.length + 1` iterations always suffice, since
each `advance` either consumes input or pins `current` at `EOF`. -/
def synchronize (s : CompState) : CompState :=
  synchronizeAux (s.rest.length + 1) { s with panicMode := false }

/-- `decleration` from `compiler.c` (spelling kept from the source). -/
def decleration (fuel : Nat) (s : CompState) : CompState :=
  let p := matchTok .varK s
  let s := if p.1 then varDecleration fuel p.2 else statementC fuel p.2
  if s.panicMode then synchronize s else s

/-- The `while (!match(TOKEN_EOF)) decleration();` loop of `compile`. -/
def declLoop : Nat → Nat → CompState → CompState
  | 0, _, s => noFuel s
  | lf + 1, fuel, s =>
    let p := matchTok .eof s
    if p.1 then p.2 else declLoop lf fuel (decleration fuel p.2)

/-- `compile` from `compiler.c` (lines 395–411): prime the parser, compile
declarations to `EOF`, end with `emitReturn` (a bare `OP_RETURN`), and
report success as the negation of the sticky error flag.  The compiled
chunk is in the returned state (C fills a caller-provided chunk). -/
def compile (tokens : List Token) (fuel : Nat) : Bool × CompState :=
  let s0 : CompState :=
    { previous := mkEof, current := mkEof, rest := tokens,
      hadError := false, panicMode := false,
      chunk := ⟨[], [], []⟩, interned := [], nextStr := 0, errors := [] }
  let s := emitReturn (declLoop fuel fuel (advance s0))
  (!s.hadError, s)

/-! ## Claim-level definitions and concrete fixtures -/

/-- `IS_STRING` from `object.h`. -/
def isStringV : Value → Bool
  | .str _ => true
  | _ => false

/-- `IS_NUMBER` from `value.h`. -/
def isNumberV : Value → Bool
  | .number _ => true
  | _ => false

/-- The frame list of a step result (used to state the frame-count bound). -/
def resFrames : StepRes → List CallFrame
  | .ok s => s.frames
  | .err _ s => s.frames
  | .halt s => s.frames
  | .spin s => s.frames

/-- A punctuation/keyword token on line 1. -/
def tok (t : TokenType) : Token := ⟨t, "", 0, 1⟩

/-- A number token on line 1 with the given `strtod` value. -/
def numTok (x : Rat) : Token := ⟨.number, "", x, 1⟩

/-- An identifier token on line 1. -/
def identTok (nm : String) : Token := ⟨.identifier, nm, 0, 1⟩

/-- A distinct interned key for the hash-table scenarios: identity `i`,
contents `toString i`, hash `i`. -/
def c1Key (i : Nat) : ObjString := ⟨i, toString i, i⟩

/-- Thread one insertion through an `Option Table` (the table after a
sequence of C `tableSet` calls; `none` as soon as one of them hangs). -/
def tableSetO (o : Option Table) (key : ObjString) (v : Value) : Option Table :=
  match o with
  | none => none
  | some t =>
    match tableSet t key v with
    | some p => some p.2
    | none => none

/-- `tableGet` through an Option-threaded table. -/
def tableGetO (o : Option Table) (key : ObjString) : Option (Option Value) :=
  match o with
  | none => none
  | some t => tableGet t key

/-- `count` through an Option-threaded table. -/
def tableCountO : Option Table → Option Nat
  | none => none
  | some t => some t.count

/-- `n` distinct insertions (ids/hashes 1..`n`, values 1..`n`) into a
fresh table. -/
def cInsertN (n : Nat) : Option Table :=
  (List.range n).foldl
    (fun o i => tableSetO o (c1Key (i + 1)) (Value.number (i + 1))) (some initTable)

/-- Six distinct insertions into a fresh table: stays at capacity 8,
no rehash yet. -/
def c1Table6 : Option Table := cInsertN 6

/-- Seven distinct insertions into a fresh table: the seventh crosses the
0.75 load factor at capacity 8 and triggers `adjustCapacity` to 16. -/
def c1Table : Option Table := cInsertN 7

/-- Token stream of the source `a = 5;`. -/
def c2Tokens : List Token :=
  [identTok "a", tok .equal, numTok 5, tok .semicolon, tok .eof]

/-- A VM state about to execute `OP_ADD` with operands `"a"` (below) and
`1` (top) — the stack `print "a" + 1;` produces. -/
def c3State : VMState :=
  { stack := [Value.str ⟨0, "a", hashString "a"⟩, Value.number 1],
    frames := [⟨⟨0, 0, ⟨[.op .ADD], [1], []⟩, none⟩, [], 0, 0⟩],
    upvalues := [], openUpvalues := [],
    globals := initTable, strings := initTable,
    nextId := 1,
    nativeEnv := fun _ _ _ => Value.nil,
    output := [] }

/-- The opcode sequences the spec's `binary` table prescribes per
operator (`!=` as EQUAL, NOT; `<=` as GREATER, NOT; `>=` as LESS, NOT). -/
def specBinaryBytes : TokenType → List CByte
  | .plus => [.op .ADD]
  | .minus => [.op .SUBTRACT]
  | .star => [.op .MULTIPLY]
  | .slash => [.op .DIVIDE]
  | .equalEqual => [.op .EQUAL]
  | .bangEqual => [.op .EQUAL, .op .NOT]
  | .less => [.op .LESS]
  | .lessEqual => [.op .GREATER, .op .NOT]
  | .greater => [.op .GREATER]
  | .greaterEqual => [.op .LESS, .op .NOT]
  | _ => []

/-- Tokens of the right-nested sum `true + (true + (… + (true)…))` with
`d` additions: `d + 1` `true` literals.  Compiles without constants, so no
constant-pool limit interferes, and execution pushes all `d + 1` literals
before the first `OP_ADD` runs. -/
def deepTokens : Nat → List Token
  | 0 => [tok .trueK]
  | d + 1 => tok .trueK :: tok .plus :: tok .leftParen :: (deepTokens d ++ [tok .rightParen])

/-- The full program `true + (… );` as a token stream. -/
def deepProgram (d : Nat) : List Token := deepTokens d ++ [tok .semicolon, tok .eof]

/-- Parser fuel that suffices for `deepProgram d`. -/
def deepFuel (d : Nat) : Nat := 6 * d + 20

/-- The tail of `deepTokens d` (so that `deepTokens d` can be rewritten
into head-cons form during parsing proofs). -/
def deepTail : Nat → List Token
  | 0 => []
  | d + 1 => tok .plus :: tok .leftParen :: (deepTokens d ++ [tok .rightParen])

/-- The bytecode the expression `deepTokens d` compiles to. -/
def deepEmits : Nat → List CByte
  | 0 => [.op .TRUE]
  | d + 1 => .op .TRUE :: (deepEmits d ++ [.op .ADD])

/-- The parser's `previous` token after `deepTokens d` is parsed. -/
def deepPrev : Nat → Token
  | 0 => tok .trueK
  | _ + 1 => tok .rightParen

/-- The line array entries written while compiling `deepTokens d`. -/
def deepLines : Nat → List Nat
  | 0 => [1]
  | d + 1 => 1 :: (deepLines d ++ [1])

/-- The script function `interpret` builds from a compiled top-level
chunk: arity 0, no upvalues, no name. -/
def chunkFunction (c : ChunkG Value) : ObjFunctionG Value :=
  ⟨0, 0, c, none⟩

/-- Formalisation of the claimed stack/frame bounds invariant: for every
token stream the compiler accepts, every state reachable by the VM from
the script start of the compiled chunk keeps the value stack within
`STACK_MAX` slots and the frame stack within `FRAMES_MAX` frames. -/
def stackBoundsClaim : Prop :=
  ∀ (tokens : List Token) (fuel : Nat),
    (compile tokens fuel).1 = true →
    ∀ (n : Nat) (s' : VMState),
      runSteps n (scriptStart (chunkFunction (compile tokens fuel).2.chunk)) = StepRes.ok s' →
      s'.stack.length ≤ STACK_MAX ∧ s'.frames.length ≤ FRAMES_MAX

/-- Every handle on the open-upvalue list dereferences to an open cell. -/
def allOpen (s : VMState) : Prop :=
  ∀ u ∈ s.openUpvalues, (locOf s.upvalues u).isSome

/-- The open-upvalue list is sorted by captured stack location in strictly
descending order (top of stack first). -/
def openSorted (s : VMState) : Prop :=
  List.Pairwise (fun a b => locOfD s.upvalues b < locOfD s.upvalues a) s.openUpvalues

/-- Upvalue handles in the heap are below the allocation cursor (fresh
handles are really fresh). -/
def heapFresh (s : VMState) : Prop :=
  ∀ p ∈ s.upvalues, p.1 < s.nextId

/-- The open-upvalue invariant of the VM (spec section 3): sortedness,
openness, and handle freshness. -/
def upInv (s : VMState) : Prop :=
  allOpen s ∧ openSorted s ∧ heapFresh s

/-- A trivial function object (for witness states). -/
def emptyFn : ObjFunctionG Value := ⟨0, 0, ⟨[], [], []⟩, none⟩

/-- A VM state whose frame stack is full (64 frames). -/
def c6State : VMState :=
  { stack := [], frames := List.replicate 64 ⟨emptyFn, [], 0, 0⟩,
    upvalues := [], openUpvalues := [],
    globals := initTable, strings := initTable,
    nextId := 0, nativeEnv := fun _ _ _ => Value.nil, output := [] }

/-- Sixteen distinct insertions into a fresh table: the 7th triggers the
8→16 growth, whose count reset leaves the final `count` at 10 — below
the 0.75 load threshold of 12, so the table never grows again — while
the 16 keys (hashes 1..16) occupy all 16 buckets. -/
def c5Full : Option Table := cInsertN 16

/-- The completely full capacity-16 table those insertions build. -/
def c5FullT : Table := c5Full.getD initTable

/-- A key absent from `c5FullT` (id/hash 17). -/
def c5Name : ObjString := c1Key 17

/-- A VM state about to execute `OP_SET_GLOBAL` for the absent `c5Name`
with the completely full `c5FullT` as the globals table. -/
def c5State : VMState :=
  { stack := [Value.number 1],
    frames := [⟨⟨0, 0, ⟨[.op .SET_GLOBAL, .arg 0], [1, 1], [Value.str c5Name]⟩, none⟩, [], 0, 0⟩],
    upvalues := [], openUpvalues := [],
    globals := c5FullT, strings := initTable,
    nextId := 1, nativeEnv := fun _ _ _ => Value.nil, output := [] }

/-- A VM state with a native callee and one argument on the stack. -/
def c10State : VMState :=
  { stack := [Value.native 0, Value.bool true],
    frames := [⟨emptyFn, [], 0, 0⟩],
    upvalues := [], openUpvalues := [],
    globals := initTable, strings := initTable,
    nextId := 0, nativeEnv := fun _ _ _ => Value.nil, output := [] }

/-- A VM state about to execute `OP_ADD` on the strings `"ab"` and
`"cd"` with a fresh strings table: interning terminates. -/
def c3StrState : VMState :=
  { stack := [Value.str ⟨0, "ab", hashString "ab"⟩, Value.str ⟨1, "cd", hashString "cd"⟩],
    frames := [⟨⟨0, 0, ⟨[.op .ADD], [1], []⟩, none⟩, [], 0, 0⟩],
    upvalues := [], openUpvalues := [],
    globals := initTable, strings := initTable,
    nextId := 2, nativeEnv := fun _ _ _ => Value.nil, output := [] }

/-- A VM state about to execute `OP_ADD` on the strings `"ab"` and
`"cd"` with the completely full `c5FullT` as the strings table: the
interning probe for the absent `"abcd"` never terminates. -/
def c3SpinState : VMState :=
  { stack := [Value.str ⟨20, "ab", hashString "ab"⟩, Value.str ⟨21, "cd", hashString "cd"⟩],
    frames := [⟨⟨0, 0, ⟨[.op .ADD], [1], []⟩, none⟩, [], 0, 0⟩],
    upvalues := [], openUpvalues := [],
    globals := initTable, strings := c5FullT,
    nextId := 22, nativeEnv := fun _ _ _ => Value.nil, output := [] }

/-- A VM state about to execute `OP_ADD` on two numbers. -/
def c3NumState : VMState :=
  { stack := [Value.number 2, Value.number 3],
    frames := [⟨⟨0, 0, ⟨[.op .ADD], [1], []⟩, none⟩, [], 0, 0⟩],
    upvalues := [], openUpvalues := [],
    globals := initTable, strings := initTable,
    nextId := 0, nativeEnv := fun _ _ _ => Value.nil, output := [] }

/-- A VM state with no upvalues at all (the invariant holds trivially). -/
def c8State : VMState :=
  { stack := [Value.number 3],
    frames := [⟨emptyFn, [], 0, 0⟩],
    upvalues := [], openUpvalues := [],
    globals := initTable, strings := initTable,
    nextId := 0, nativeEnv := fun _ _ _ => Value.nil, output := [] }

/-! ## Proofs: probe-path and rollback lemmas for the table -/

theorem entryAt_key_some_mem {es : List Entry} {i : Nat} {k' : ObjString}
    (h : (entryAt es i).key = some k') : entryAt es i ∈ es := by
  by_cases hi : i < es.length
  · unfold entryAt
    rw [List.getD_eq_getElem _ _ hi]
    exact List.getElem_mem hi
  · exfalso
    unfold entryAt at h
    rw [List.getD_eq_default _ _ (le_of_not_lt hi)] at h
    exact Option.noConfusion h

theorem entryAt_set_self {es : List Entry} {i : Nat} (h : i < es.length) (e : Entry) :
    entryAt (es.set i e) i = e := by
  unfold entryAt
  rw [List.getD_eq_getElem _ _ (by simpa using h)]
  simp

theorem entryAt_set_ne {es : List Entry} {i j : Nat} (h : i ≠ j) (e : Entry) :
    entryAt (es.set i e) j = entryAt es j := by
  unfold entryAt
  rw [List.getD_eq_getElem?_getD, List.getD_eq_getElem?_getD, List.getElem?_set_ne h]

theorem probe_shift (cap start j : Nat) :
    ((start + 1) % cap + j) % cap = (start + (j + 1)) % cap := by
  rw [Nat.mod_add_mod]
  congr 1
  omega

theorem probe_inj {cap : Nat} {start j m : Nat} (hj : j < cap) (hm : m < cap)
    (h : (start + j) % cap = (start + m) % cap) : j = m := by
  have h2 : j % cap = m % cap := Nat.ModEq.add_left_cancel' start h
  rwa [Nat.mod_eq_of_lt hj, Nat.mod_eq_of_lt hm] at h2

theorem probe_coverage {cap start i : Nat} (hs : start < cap) (hi : i < cap) :
    ∃ j < cap, (start + j) % cap = i := by
  have hcap : 0 < cap := Nat.pos_of_ne_zero (by omega)
  refine ⟨(cap + i - start) % cap, Nat.mod_lt _ hcap, ?_⟩
  have h1 : (start + (cap + i - start) % cap) % cap = (start + (cap + i - start)) % cap := by
    rw [Nat.add_mod, Nat.mod_mod_of_dvd _ dvd_rfl, ← Nat.add_mod]
  have h2 : start + (cap + i - start) = cap + i :=
    Nat.add_sub_cancel' (le_trans (le_of_lt hs) (Nat.le_add_right _ _))
  rw [h1, h2, Nat.add_mod_left, Nat.mod_eq_of_lt hi]

/-- If the probe path from `start` consists of `m` buckets occupied by other
keys and then a bucket holding `k`, the probe finds exactly that bucket
(whatever tombstone was remembered so far). -/
theorem findEntryAux_finds_key {es : List Entry} {cap : Nat} {k : ObjString} :
    ∀ (m fuel start : Nat) (tombOpt : Option Nat), m < fuel → start < cap →
    (∀ j < m, occOther k (entryAt es ((start + j) % cap))) →
    (entryAt es ((start + m) % cap)).key = some k →
    findEntryAux es cap k fuel start tombOpt = some ((start + m) % cap) := by
  intro m
  induction m with
  | zero =>
    intro fuel start tombOpt hfuel hs _ hkey
    obtain ⟨f, rfl⟩ : ∃ f, fuel = f + 1 := ⟨fuel - 1, by omega⟩
    have hmod : (start + 0) % cap = start := by
      rw [Nat.add_zero]
      exact Nat.mod_eq_of_lt hs
    rw [hmod] at hkey ⊢
    rw [findEntryAux]
    rw [if_neg (by rw [hkey]; exact fun h => Option.noConfusion h)]
    rw [if_pos hkey]
  | succ m ih =>
    intro fuel start tombOpt hfuel hs hpre hkey
    obtain ⟨f, rfl⟩ : ∃ f, fuel = f + 1 := ⟨fuel - 1, by omega⟩
    obtain ⟨k', hk', hne⟩ := hpre 0 (Nat.succ_pos m)
    rw [Nat.add_zero, Nat.mod_eq_of_lt hs] at hk'
    have hcap : 0 < cap := by omega
    rw [findEntryAux]
    rw [if_neg (by rw [hk']; exact fun h => Option.noConfusion h)]
    rw [if_neg (by rw [hk']; exact fun h => hne (Option.some_injective _ h.symm).symm)]
    have hs' : (start + 1) % cap < cap := Nat.mod_lt _ hcap
    have := ih f ((start + 1) % cap) tombOpt (by omega) hs'
      (fun j hj => by rw [probe_shift]; exact hpre (j + 1) (by omega))
      (by rw [probe_shift]; exact hkey)
    rw [this, probe_shift]

/-- Under absence of `k`, a probe seeded with a remembered tombstone can
only return that tombstone. -/
theorem findEntryAux_absent_tomb {es : List Entry} {cap : Nat} {k : ObjString}
    (habs : ∀ e ∈ es, e.key ≠ some k) :
    ∀ (fuel start t0 r : Nat),
    findEntryAux es cap k fuel start (some t0) = some r → r = t0 := by
  intro fuel
  induction fuel with
  | zero => intro start t0 r h; exact Option.noConfusion h
  | succ f ih =>
    intro start t0 r h
    rw [findEntryAux] at h
    by_cases hkey : (entryAt es start).key = none
    · rw [if_pos hkey] at h
      by_cases hnil : isNilV (entryAt es start).value = true
      · rw [if_pos hnil] at h
        simp at h
        omega
      · rw [if_neg hnil] at h
        exact ih _ _ _ h
    · rw [if_neg hkey] at h
      have hsome : ¬((entryAt es start).key = some k) := by
        intro hc
        exact habs _ (entryAt_key_some_mem hc) hc
      rw [if_neg hsome] at h
      exact ih _ _ _ h

/-- Under absence of `k`, any bucket the probe returns has a `NULL` key
(it is an empty bucket or a tombstone). -/
theorem findEntryAux_absent_key_none {es : List Entry} {cap : Nat} {k : ObjString}
    (habs : ∀ e ∈ es, e.key ≠ some k) :
    ∀ (fuel start : Nat) (tombOpt : Option Nat) (r : Nat),
    (∀ t0, tombOpt = some t0 → (entryAt es t0).key = none) →
    findEntryAux es cap k fuel start tombOpt = some r →
    (entryAt es r).key = none := by
  intro fuel
  induction fuel with
  | zero => intro start tombOpt r _ h; exact Option.noConfusion h
  | succ f ih =>
    intro start tombOpt r hinv h
    rw [findEntryAux] at h
    by_cases hkey : (entryAt es start).key = none
    · rw [if_pos hkey] at h
      by_cases hnil : isNilV (entryAt es start).value = true
      · rw [if_pos hnil] at h
        cases tombOpt with
        | none =>
          simp at h
          rwa [← h]
        | some t0 =>
          simp at h
          exact h ▸ hinv t0 rfl
      · rw [if_neg hnil] at h
        refine ih _ _ _ (fun t0 ht0 => ?_) h
        cases tombOpt with
        | none =>
          simp at ht0
          rwa [← ht0]
        | some t1 =>
          simp at ht0
          exact ht0 ▸ hinv t1 rfl
    · rw [if_neg hkey] at h
      have hsome : ¬((entryAt es start).key = some k) := by
        intro hc
        exact habs _ (entryAt_key_some_mem hc) hc
      rw [if_neg hsome] at h
      exact ih _ _ _ hinv h

/-- Under absence of `k`, a fresh probe (no remembered tombstone) that
returns index `r` returns a bucket on its own probe path: `r` lies `m`
steps from `start`, all strictly earlier path buckets are occupied by
other keys, and bucket `r` has a `NULL` key. -/
theorem findEntryAux_absent_char {es : List Entry} {cap : Nat} {k : ObjString}
    (habs : ∀ e ∈ es, e.key ≠ some k) :
    ∀ (fuel start r : Nat), start < cap →
    findEntryAux es cap k fuel start none = some r →
    ∃ m < fuel, r = (start + m) % cap ∧
      (∀ j < m, occOther k (entryAt es ((start + j) % cap))) ∧
      (entryAt es r).key = none := by
  intro fuel
  induction fuel with
  | zero => intro start r _ h; exact Option.noConfusion h
  | succ f ih =>
    intro start r hs h
    have hcap : 0 < cap := by omega
    rw [findEntryAux] at h
    by_cases hkey : (entryAt es start).key = none
    · rw [if_pos hkey] at h
      by_cases hnil : isNilV (entryAt es start).value = true
      · rw [if_pos hnil] at h
        simp at h
        refine ⟨0, Nat.succ_pos f, ?_, fun j hj => absurd hj (Nat.not_lt_zero j), ?_⟩
        · rw [Nat.add_zero, Nat.mod_eq_of_lt hs, h]
        · rwa [← h]
      · rw [if_neg hnil] at h
        have hr : r = start := findEntryAux_absent_tomb habs f ((start + 1) % cap) start r h
        refine ⟨0, Nat.succ_pos f, ?_, fun j hj => absurd hj (Nat.not_lt_zero j), ?_⟩
        · rw [Nat.add_zero, Nat.mod_eq_of_lt hs, hr]
        · rwa [hr]
    · rw [if_neg hkey] at h
      have hsome : ¬((entryAt es start).key = some k) := by
        intro hc
        exact habs _ (entryAt_key_some_mem hc) hc
      rw [if_neg hsome] at h
      obtain ⟨m', hm', hr, hpre, hkey0⟩ := ih ((start + 1) % cap) r (Nat.mod_lt _ hcap) h
      obtain ⟨k', hk'⟩ := Option.ne_none_iff_exists'.mp hkey
      refine ⟨m' + 1, by omega, ?_, ?_, hkey0⟩
      · rw [hr, probe_shift]
      · intro j hj
        match j with
        | 0 =>
          rw [Nat.add_zero, Nat.mod_eq_of_lt hs]
          exact ⟨k', hk', fun he => hsome (he ▸ hk')⟩
        | j + 1 =>
          rw [← probe_shift]
          exact hpre j (by omega)

/-- If some bucket on the first `fuel` steps of the probe path stops the
probe (truly empty, or holding `k`), the probe returns a result. -/
theorem findEntryAux_terminates {es : List Entry} {cap : Nat} {k : ObjString} :
    ∀ (fuel start : Nat) (tombOpt : Option Nat), start < cap →
    (∃ j < fuel, emptyBucket (entryAt es ((start + j) % cap)) ∨
      (entryAt es ((start + j) % cap)).key = some k) →
    (findEntryAux es cap k fuel start tombOpt).isSome := by
  intro fuel
  induction fuel with
  | zero => intro start tombOpt _ h; obtain ⟨j, hj, _⟩ := h; omega
  | succ f ih =>
    intro start tombOpt hs hstop
    have hcap : 0 < cap := by omega
    rw [findEntryAux]
    by_cases hkey : (entryAt es start).key = none
    · rw [if_pos hkey]
      by_cases hnil : isNilV (entryAt es start).value = true
      · rw [if_pos hnil]
        simp
      · rw [if_neg hnil]
        refine ih _ _ (Nat.mod_lt _ hcap) ?_
        obtain ⟨j, hj, hstop⟩ := hstop
        match j with
        | 0 =>
          exfalso
          rw [Nat.add_zero, Nat.mod_eq_of_lt hs] at hstop
          rcases hstop with ⟨_, hb⟩ | hb
          · exact hnil hb
          · rw [hkey] at hb
            exact Option.noConfusion hb
        | j + 1 =>
          exact ⟨j, by omega, by rw [probe_shift]; exact hstop⟩
    · by_cases hk2 : (entryAt es start).key = some k
      · rw [if_neg hkey, if_pos hk2]
        simp
      · rw [if_neg hkey, if_neg hk2]
        refine ih _ _ (Nat.mod_lt _ hcap) ?_
        obtain ⟨j, hj, hstop⟩ := hstop
        match j with
        | 0 =>
          exfalso
          rw [Nat.add_zero, Nat.mod_eq_of_lt hs] at hstop
          rcases hstop with ⟨hb, _⟩ | hb
          · exact hkey hb
          · exact hk2 hb
        | j + 1 =>
          exact ⟨j, by omega, by rw [probe_shift]; exact hstop⟩

/-! ### The rollback chain of `tableSet`/`tableDelete`/`tableGet`

Helper lemmas (not tied to a claim): whenever the probes terminate, the
`OP_SET_GLOBAL` insert-then-delete rollback behaves as the spec
describes.  The `WfTable` shape they assume is NOT maintained by the
program (sixteen distinct inserts fill every bucket for good). -/

theorem tableSetRaw_found (t : Table) (k : ObjString) (v : Value) (i : Nat)
    (hf : findEntry t.entries t.capacity k = some i) :
    tableSetRaw t k v = some (tableSetAt t k v i) := by
  rw [tableSetRaw, hf]

theorem tableDelete_zero (t : Table) (k : ObjString) (hc : t.count = 0) :
    tableDelete t k = some (false, t) := by
  rw [tableDelete, if_pos hc]

theorem tableDelete_found (t : Table) (k : ObjString) (i : Nat)
    (hc : t.count ≠ 0) (hf : findEntry t.entries t.capacity k = some i) :
    tableDelete t k = some (tableDeleteAt t i) := by
  rw [tableDelete, if_neg hc, hf]

theorem tableGet_zero (t : Table) (k : ObjString) (hc : t.count = 0) :
    tableGet t k = some none := by
  rw [tableGet, if_pos hc]

theorem tableGet_nofind (t : Table) (k : ObjString)
    (hc : ¬ t.count = 0) (hf : findEntry t.entries t.capacity k = none) :
    tableGet t k = none := by
  rw [tableGet, if_neg hc, hf]

theorem tableGet_found (t : Table) (k : ObjString) (i : Nat)
    (hc : ¬ t.count = 0) (hf : findEntry t.entries t.capacity k = some i) :
    tableGet t k = some (tableGetAt t i) := by
  rw [tableGet, if_neg hc, hf]

/-- Core of the `OP_SET_GLOBAL` rollback: on a table whose bucket array is
full-length with a truly empty bucket, and which nowhere holds key `k`,
the `tableSetRaw` probe terminates and reports a new key, the rollback
`tableDelete` terminates, and a `tableGet` of `k` afterwards can never
yield a value: it either misses or (when the insert consumed the last
truly empty bucket and the delete replaced it by a tombstone) never
terminates — but it never hits. -/
theorem tableSetRaw_absent_rollback (t' : Table) (k : ObjString) (v : Value)
    (hlen : t'.entries.length = t'.capacity) (hpos : 0 < t'.capacity)
    (habs : ∀ e ∈ t'.entries, e.key ≠ some k)
    (hempty : ∃ i < t'.capacity, emptyBucket (entryAt t'.entries i)) :
    ∃ p, tableSetRaw t' k v = some p ∧ p.1 = true ∧
      ∃ q, tableDelete p.2 k = some q ∧
        ∀ w, tableGet q.2 k ≠ some (some w) := by
  set cap := t'.capacity with hcap
  set start := k.hash % cap with hstart
  have hs : start < cap := Nat.mod_lt _ hpos
  -- the probe in tableSetRaw succeeds and returns a NULL-key bucket
  obtain ⟨i0, hi0, hemp0⟩ := hempty
  obtain ⟨j0, hj0, hcov⟩ := probe_coverage hs hi0
  have hterm := @findEntryAux_terminates t'.entries cap k cap start none hs
    ⟨j0, hj0, Or.inl (by rw [hcov]; exact hemp0)⟩
  obtain ⟨idx, hfind⟩ := Option.isSome_iff_exists.mp hterm
  obtain ⟨m, hm, hidx, hpre, hkeyN⟩ := findEntryAux_absent_char habs cap start idx hs hfind
  have hfind' : findEntry t'.entries cap k = some idx := hfind
  have hidxlt : idx < t'.entries.length := by
    rw [hidx, hlen]
    exact Nat.mod_lt _ hpos
  have hnewkey : (entryAt t'.entries idx).key.isNone = true := by
    rw [hkeyN]; rfl
  have hset : tableSetRaw t' k v =
      some ((entryAt t'.entries idx).key.isNone,
        { t' with
          count := if (entryAt t'.entries idx).key.isNone &&
              isNilV (entryAt t'.entries idx).value then t'.count + 1 else t'.count,
          entries := t'.entries.set idx ⟨some k, v⟩ }) := by
    rw [tableSetRaw_found t' k v idx hfind']
    rfl
  refine ⟨_, hset, hnewkey, ?_⟩
  set c1 := if ((entryAt t'.entries idx).key.isNone &&
      isNilV (entryAt t'.entries idx).value) = true then t'.count + 1 else t'.count with hc1def
  set es1 := t'.entries.set idx ⟨some k, v⟩ with hes1
  set t1 : Table := { t' with count := c1, entries := es1 } with ht1
  by_cases hc1 : c1 = 0
  · -- the delete is a no-op (count says the table is empty), and the get
    -- short-circuits to a miss the same way
    have hz : t1.count = 0 := hc1
    refine ⟨(false, t1), tableDelete_zero t1 k hz, ?_⟩
    intro w h
    rw [tableGet_zero t1 k hz] at h
    exact Option.noConfusion (Option.some_injective _ h)
  · -- the delete finds the just-written bucket and tombstones it
    have hnz : t1.count ≠ 0 := hc1
    have hlen1 : es1.length = t'.entries.length := List.length_set ..
    have hset_self : entryAt es1 idx = ⟨some k, v⟩ :=
      entryAt_set_self (by omega) _
    have hfind2 : findEntry es1 cap k = some idx := by
      have hkk := @findEntryAux_finds_key es1 cap k m cap start none hm hs
        (fun j hj => by
          have hne : idx ≠ (start + j) % cap := by
            rw [hidx]
            intro hcontra
            have := probe_inj (hj.trans hm) hm hcontra.symm
            omega
          rw [entryAt_set_ne hne]
          exact hpre j hj)
        (by rw [← hidx, hset_self])
      rw [← hidx] at hkk
      exact hkk
    have hfind2' : findEntry t1.entries t1.capacity k = some idx := hfind2
    have hAt1 : entryAt t1.entries idx = ⟨some k, v⟩ := hset_self
    have hdel : tableDeleteAt t1 idx =
        (true, { t1 with entries := es1.set idx ⟨none, Value.bool true⟩ }) := by
      unfold tableDeleteAt
      rw [hAt1]
      rfl
    refine ⟨(true, { t1 with entries := es1.set idx ⟨none, Value.bool true⟩ }),
      by rw [tableDelete_found t1 k idx hnz hfind2', hdel], ?_⟩
    -- the final get never hits: k occurs nowhere in the tombstoned array
    set es2 := es1.set idx ⟨none, Value.bool true⟩ with hes2
    set t2 : Table := { t1 with entries := es2 } with ht2
    have habs2 : ∀ e ∈ es2, e.key ≠ some k := by
      rw [hes2, hes1, List.set_set]
      intro e he
      rcases List.mem_or_eq_of_mem_set he with h | h
      · exact habs e h
      · rw [h]; exact fun hcon => Option.noConfusion hcon
    have hnz2 : t2.count ≠ 0 := hc1
    intro w hw
    cases hres : findEntry t2.entries t2.capacity k with
    | none =>
      rw [tableGet_nofind t2 k hnz2 hres] at hw
      exact Option.noConfusion hw
    | some r =>
      have hkr : (entryAt es2 r).key = none :=
        findEntryAux_absent_key_none habs2 cap start none r
          (fun t0 ht0 => Option.noConfusion ht0) hres
      rw [tableGet_found t2 k r hnz2 hres] at hw
      have hkn : (entryAt t2.entries r).key.isNone = true := by
        show (entryAt es2 r).key.isNone = true
        rw [hkr]
        rfl
      have hga : tableGetAt t2 r = none := by
        simp only [tableGetAt, hkn]
        rfl
      rw [hga] at hw
      exact Option.noConfusion (Option.some_injective _ hw)

/-! ### Upvalue-heap lemmas (for the open-upvalue invariant) -/

theorem lookupUp_cons (uid : Nat) (st : UpState) (heap : List (Nat × UpState)) (u : Nat) :
    lookupUp ((uid, st) :: heap) u = if uid = u then some st else lookupUp heap u := by
  unfold lookupUp
  rw [List.find?_cons]
  by_cases h : uid = u <;> simp [h]

theorem locOf_cons_ne {uid u : Nat} (h : uid ≠ u) (st : UpState)
    (heap : List (Nat × UpState)) : locOf ((uid, st) :: heap) u = locOf heap u := by
  unfold locOf
  rw [lookupUp_cons, if_neg h]

theorem locOf_cons_self (uid l : Nat) (heap : List (Nat × UpState)) :
    locOf ((uid, UpState.openAt l) :: heap) uid = some l := by
  unfold locOf
  rw [lookupUp_cons, if_pos rfl]

theorem locOfD_cons_ne {uid u : Nat} (h : uid ≠ u) (st : UpState)
    (heap : List (Nat × UpState)) : locOfD ((uid, st) :: heap) u = locOfD heap u := by
  unfold locOfD
  rw [locOf_cons_ne h]

theorem lookupUp_mem {heap : List (Nat × UpState)} {u : Nat} {st : UpState}
    (h : lookupUp heap u = some st) : (u, st) ∈ heap := by
  unfold lookupUp at h
  cases hf : heap.find? (fun p => p.1 = u) with
  | none => rw [hf] at h; exact Option.noConfusion h
  | some p =>
    rw [hf] at h
    have hp := List.find?_some hf
    have hmem := List.mem_of_find?_eq_some hf
    have : p.1 = u := by simpa using hp
    have : p = (u, st) := by
      cases p
      simp at h this
      simp [this, h]
    rwa [this] at hmem

/-- Under freshness, a handle with a live heap cell is below the cursor. -/
theorem locOf_lt_nextId {s : VMState} (hf : heapFresh s) {u : Nat}
    (h : (locOf s.upvalues u).isSome) : u < s.nextId := by
  unfold locOf at h
  cases hl : lookupUp s.upvalues u with
  | none => rw [hl] at h; simp at h
  | some st => exact hf (u, st) (lookupUp_mem hl)

theorem updateUp_keys (heap : List (Nat × UpState)) (uid : Nat) (st : UpState) :
    (updateUp heap uid st).map Prod.fst = heap.map Prod.fst := by
  induction heap with
  | nil => rfl
  | cons p ps ih =>
    rw [updateUp, List.map_cons, List.map_cons, ih]
    by_cases h : p.1 = uid
    · rw [if_pos h, h]
    · rw [if_neg h]

theorem lookupUp_updateUp_ne {heap : List (Nat × UpState)} {uid u : Nat} (h : u ≠ uid)
    (st : UpState) : lookupUp (updateUp heap uid st) u = lookupUp heap u := by
  induction heap with
  | nil => rfl
  | cons p ps ih =>
    cases p with
    | mk k st0 =>
      rw [updateUp]
      by_cases hk : k = uid
      · subst hk
        rw [if_pos rfl]
        rw [lookupUp_cons, if_neg (fun hc => h hc.symm), lookupUp_cons,
          if_neg (fun hc => h hc.symm)]
        exact ih
      · rw [if_neg hk]
        rw [lookupUp_cons, lookupUp_cons]
        by_cases hku : k = u
        · rw [if_pos hku, if_pos hku]
        · rw [if_neg hku, if_neg hku]
          exact ih

theorem lookupUp_updateUp_self {heap : List (Nat × UpState)} {uid : Nat} {st0 : UpState}
    (h : lookupUp heap uid = some st0) (st : UpState) :
    lookupUp (updateUp heap uid st) uid = some st := by
  induction heap with
  | nil => exact Option.noConfusion h
  | cons p ps ih =>
    cases p with
    | mk k st1 =>
      rw [updateUp]
      by_cases hk : k = uid
      · subst hk
        rw [if_pos rfl, lookupUp_cons, if_pos rfl]
      · rw [if_neg hk, lookupUp_cons, if_neg hk]
        rw [lookupUp_cons, if_neg hk] at h
        exact ih h

theorem locOfD_updateUp_ne {heap : List (Nat × UpState)} {uid u : Nat} (h : u ≠ uid)
    (st : UpState) : locOfD (updateUp heap uid st) u = locOfD heap u := by
  unfold locOfD locOf
  rw [lookupUp_updateUp_ne h]

theorem captureWalk_append (heap : List (Nat × UpState)) (l : Nat) :
    ∀ xs : List Nat, (captureWalk heap l xs).1 ++ (captureWalk heap l xs).2 = xs := by
  intro xs
  induction xs with
  | nil => rfl
  | cons uid rest ih =>
    unfold captureWalk
    by_cases h : l < locOfD heap uid
    · rw [if_pos h]
      simpa using ih
    · rw [if_neg h]
      rfl

theorem captureWalk_pre (heap : List (Nat × UpState)) (l : Nat) :
    ∀ xs : List Nat, ∀ u ∈ (captureWalk heap l xs).1, l < locOfD heap u := by
  intro xs
  induction xs with
  | nil => intro u hu; exact absurd hu (List.not_mem_nil u)
  | cons uid rest ih =>
    intro u hu
    unfold captureWalk at hu
    by_cases h : l < locOfD heap uid
    · rw [if_pos h] at hu
      simp at hu
      rcases hu with rfl | hu
      · exact h
      · exact ih u hu
    · rw [if_neg h] at hu
      exact absurd hu (List.not_mem_nil u)

theorem captureWalk_head (heap : List (Nat × UpState)) (l : Nat) :
    ∀ xs : List Nat, ∀ u rest', (captureWalk heap l xs).2 = u :: rest' →
    locOfD heap u ≤ l := by
  intro xs
  induction xs with
  | nil => intro u rest' h; exact absurd h (by simp [captureWalk])
  | cons uid rest ih =>
    intro u rest' h
    unfold captureWalk at h
    by_cases hc : l < locOfD heap uid
    · rw [if_pos hc] at h
      exact ih u rest' h
    · rw [if_neg hc] at h
      have h2 : uid :: rest = u :: rest' := h
      injection h2 with h3 _
      rw [← h3]
      omega

theorem pairwise_rel_of_ne {R : Nat → Nat → Prop} :
    ∀ {l : List Nat}, l.Pairwise R → ∀ {a b}, a ∈ l → b ∈ l → a ≠ b → R a b ∨ R b a := by
  intro l hp
  induction hp with
  | nil => intro a b ha _ _; exact absurd ha (List.not_mem_nil a)
  | cons hr _ ih =>
    intro a b ha hb hne
    rcases List.mem_cons.mp ha with rfl | ha'
    · rcases List.mem_cons.mp hb with rfl | hb'
      · exact absurd rfl hne
      · exact Or.inl (hr b hb')
    · rcases List.mem_cons.mp hb with rfl | hb'
      · exact Or.inr (hr a ha')
      · exact ih ha' hb' hne

/-- The loop of `closeUpvalues`, specified: on a sorted all-open list it
closes the prefix of locations `≥ last`; the survivors keep their open
cells untouched and all sit below `last`; the heap keys are unchanged. -/
theorem closeAux_spec (last : Nat) (stack : List Value) :
    ∀ (xs : List Nat) (heap : List (Nat × UpState)),
    (∀ u ∈ xs, (locOf heap u).isSome) →
    List.Pairwise (fun a b => locOfD heap b < locOfD heap a) xs →
    (∀ u ∈ (closeUpvaluesAux last stack xs heap).1,
        locOf (closeUpvaluesAux last stack xs heap).2 u = locOf heap u ∧
        locOfD heap u < last) ∧
    (closeUpvaluesAux last stack xs heap).1 <:+ xs ∧
    (closeUpvaluesAux last stack xs heap).2.map Prod.fst = heap.map Prod.fst := by
  intro xs
  induction xs with
  | nil =>
    intro heap _ _
    exact ⟨fun u hu => absurd hu (List.not_mem_nil u), List.nil_suffix, rfl⟩
  | cons uid rest ih =>
    intro heap hall hsort
    have huid := hall uid (List.mem_cons_self uid rest)
    obtain ⟨loc, hl⟩ : ∃ loc, lookupUp heap uid = some (UpState.openAt loc) := by
      unfold locOf at huid
      cases hlk : lookupUp heap uid with
      | none => rw [hlk] at huid; simp at huid
      | some st =>
        cases st with
        | openAt m => exact ⟨m, rfl⟩
        | closedWith v => rw [hlk] at huid; simp at huid
    have hlocD : locOfD heap uid = loc := by
      unfold locOfD locOf
      rw [hl]
      rfl
    have hstep : closeUpvaluesAux last stack (uid :: rest) heap =
        if last ≤ loc then
          closeUpvaluesAux last stack rest
            (updateUp heap uid (.closedWith (stack.getD loc Value.nil)))
        else (uid :: rest, heap) := by
      rw [closeUpvaluesAux, hl]
    have hhead : ∀ b ∈ rest, locOfD heap b < locOfD heap uid :=
      fun b hb => List.rel_of_pairwise_cons hsort hb
    by_cases hcl : last ≤ loc
    · rw [hstep, if_pos hcl]
      set heap' := updateUp heap uid (.closedWith (stack.getD loc Value.nil)) with hh'
      have hne : ∀ u ∈ rest, u ≠ uid := by
        intro u hu he
        have := hhead u hu
        rw [he] at this
        omega
      have hall' : ∀ u ∈ rest, (locOf heap' u).isSome := by
        intro u hu
        unfold locOf
        rw [lookupUp_updateUp_ne (hne u hu)]
        exact hall u (List.mem_cons_of_mem uid hu)
      have hloceq : ∀ u ∈ rest, locOfD heap' u = locOfD heap u := by
        intro u hu
        exact locOfD_updateUp_ne (hne u hu) _
      have hsort' : List.Pairwise (fun a b => locOfD heap' b < locOfD heap' a) rest := by
        refine List.Pairwise.imp_of_mem ?_ (List.Pairwise.of_cons hsort)
        intro a b ha hb hrel
        rw [hloceq a ha, hloceq b hb]
        exact hrel
      obtain ⟨ih1, ih2, ih3⟩ := ih heap' hall' hsort'
      refine ⟨?_, ?_, ?_⟩
      · intro u hu
        have humem : u ∈ rest := ih2.subset hu
        obtain ⟨e1, e2⟩ := ih1 u hu
        refine ⟨?_, ?_⟩
        · rw [e1]
          unfold locOf
          rw [lookupUp_updateUp_ne (hne u humem)]
        · rw [← hloceq u humem]
          exact e2
      · exact ih2.trans (List.suffix_cons uid rest)
      · rw [ih3, updateUp_keys]
    · rw [hstep, if_neg hcl]
      refine ⟨?_, List.suffix_refl _, rfl⟩
      intro u hu
      rcases List.mem_cons.mp hu with rfl | hu'
      · exact ⟨rfl, by omega⟩
      · refine ⟨rfl, ?_⟩
        have := hhead u hu'
        omega

theorem captureUpvalue_reuse (s : VMState) (l uid : Nat) (rest' : List Nat)
    (h2 : (captureWalk s.upvalues l s.openUpvalues).2 = uid :: rest')
    (hloc : locOf s.upvalues uid = some l) :
    captureUpvalue l s = (uid, s) := by
  simp only [captureUpvalue, h2, hloc, if_true]

theorem captureUpvalue_fresh_nil (s : VMState) (l : Nat)
    (h2 : (captureWalk s.upvalues l s.openUpvalues).2 = []) :
    captureUpvalue l s = (s.nextId,
      { s with
          upvalues := (s.nextId, UpState.openAt l) :: s.upvalues
          openUpvalues := (captureWalk s.upvalues l s.openUpvalues).1 ++
            s.nextId :: (captureWalk s.upvalues l s.openUpvalues).2
          nextId := s.nextId + 1 }) := by
  simp only [captureUpvalue, h2]

theorem captureUpvalue_fresh_cons (s : VMState) (l uid : Nat) (rest' : List Nat)
    (h2 : (captureWalk s.upvalues l s.openUpvalues).2 = uid :: rest')
    (hloc : ¬ locOf s.upvalues uid = some l) :
    captureUpvalue l s = (s.nextId,
      { s with
          upvalues := (s.nextId, UpState.openAt l) :: s.upvalues
          openUpvalues := (captureWalk s.upvalues l s.openUpvalues).1 ++
            s.nextId :: (captureWalk s.upvalues l s.openUpvalues).2
          nextId := s.nextId + 1 }) := by
  simp only [captureUpvalue, h2, hloc, if_false, if_neg]

/-- Full specification of `captureUpvalue` under the open-upvalue
invariant: the invariant is preserved, the returned handle is an open
upvalue at the requested slot sitting in the open list, and when an open
upvalue at that slot already exists it is returned with the state
untouched (the sharing guarantee). -/
theorem captureUpvalue_spec (s : VMState) (l : Nat) (hinv : upInv s) :
    upInv (captureUpvalue l s).2 ∧
    locOf (captureUpvalue l s).2.upvalues (captureUpvalue l s).1 = some l ∧
    (captureUpvalue l s).1 ∈ (captureUpvalue l s).2.openUpvalues ∧
    (∀ u ∈ s.openUpvalues, locOf s.upvalues u = some l →
        captureUpvalue l s = (u, s)) := by
  obtain ⟨hall, hsort, hfresh⟩ := hinv
  have happ := captureWalk_append s.upvalues l s.openUpvalues
  have hpre := captureWalk_pre s.upvalues l s.openUpvalues
  have hmem1 : ∀ u ∈ (captureWalk s.upvalues l s.openUpvalues).1, u ∈ s.openUpvalues := by
    intro u hu
    rw [← happ]
    exact List.mem_append_left _ hu
  have hmem2 : ∀ u ∈ (captureWalk s.upvalues l s.openUpvalues).2, u ∈ s.openUpvalues := by
    intro u hu
    rw [← happ]
    exact List.mem_append_right _ hu
  have hsuf : (captureWalk s.upvalues l s.openUpvalues).2 <:+ s.openUpvalues :=
    ⟨(captureWalk s.upvalues l s.openUpvalues).1, happ⟩
  have hprefx : (captureWalk s.upvalues l s.openUpvalues).1 <+: s.openUpvalues :=
    ⟨(captureWalk s.upvalues l s.openUpvalues).2, happ⟩
  have hsort1 := List.Pairwise.sublist hprefx.sublist hsort
  have hsort2 := List.Pairwise.sublist hsuf.sublist hsort
  have hshareHead : ∀ u ∈ s.openUpvalues, locOf s.upvalues u = some l →
      ∃ r2, (captureWalk s.upvalues l s.openUpvalues).2 = u :: r2 := by
    intro u hu hul
    have hD : locOfD s.upvalues u = l := by
      unfold locOfD
      rw [hul]
      rfl
    rw [← happ] at hu
    rcases List.mem_append.mp hu with h1 | h2
    · have := hpre u h1
      omega
    · cases hp2 : (captureWalk s.upvalues l s.openUpvalues).2 with
      | nil =>
        rw [hp2] at h2
        exact absurd h2 (List.not_mem_nil u)
      | cons uid rest' =>
        rw [hp2] at h2
        rcases List.mem_cons.mp h2 with rfl | h3
        · exact ⟨rest', rfl⟩
        · exfalso
          have hhd := captureWalk_head s.upvalues l s.openUpvalues uid rest' hp2
          have hlt := List.rel_of_pairwise_cons (hp2 ▸ hsort2) h3
          omega
  have hlt : ∀ u ∈ s.openUpvalues, u < s.nextId :=
    fun u hu => locOf_lt_nextId hfresh (hall u hu)
  have hne : ∀ u ∈ s.openUpvalues, s.nextId ≠ u := by
    intro u hu h
    have := hlt u hu
    omega
  have hDeq : ∀ u ∈ s.openUpvalues,
      locOfD ((s.nextId, UpState.openAt l) :: s.upvalues) u = locOfD s.upvalues u :=
    fun u hu => locOfD_cons_ne (hne u hu) _ _
  have hLeq : ∀ u ∈ s.openUpvalues,
      locOf ((s.nextId, UpState.openAt l) :: s.upvalues) u = locOf s.upvalues u :=
    fun u hu => locOf_cons_ne (hne u hu) _ _
  have hDnew : locOfD ((s.nextId, UpState.openAt l) :: s.upvalues) s.nextId = l := by
    unfold locOfD
    rw [locOf_cons_self]
    rfl
  have hA : ∀ u ∈ (captureWalk s.upvalues l s.openUpvalues).1 ++
      s.nextId :: (captureWalk s.upvalues l s.openUpvalues).2,
      (locOf ((s.nextId, UpState.openAt l) :: s.upvalues) u).isSome := by
    intro u hu
    rcases List.mem_append.mp hu with h1 | h2
    · rw [hLeq u (hmem1 u h1)]
      exact hall u (hmem1 u h1)
    · rcases List.mem_cons.mp h2 with rfl | h3
      · rw [locOf_cons_self]
        rfl
      · rw [hLeq u (hmem2 u h3)]
        exact hall u (hmem2 u h3)
  have hF : ∀ p ∈ (s.nextId, UpState.openAt l) :: s.upvalues, p.1 < s.nextId + 1 := by
    intro p hp
    rcases List.mem_cons.mp hp with rfl | h2
    · exact Nat.lt_succ_self _
    · exact Nat.lt_succ_of_lt (hfresh p h2)
  have hS : (∀ b ∈ (captureWalk s.upvalues l s.openUpvalues).2,
        locOfD s.upvalues b < l) →
      List.Pairwise (fun a b => locOfD ((s.nextId, UpState.openAt l) :: s.upvalues) b <
          locOfD ((s.nextId, UpState.openAt l) :: s.upvalues) a)
        ((captureWalk s.upvalues l s.openUpvalues).1 ++
          s.nextId :: (captureWalk s.upvalues l s.openUpvalues).2) := by
    intro hbelow
    refine List.pairwise_append.mpr ⟨?_, ?_, ?_⟩
    · refine List.Pairwise.imp_of_mem ?_ hsort1
      intro a b ha hb hrel
      rw [hDeq a (hmem1 a ha), hDeq b (hmem1 b hb)]
      exact hrel
    · refine List.Pairwise.cons ?_ ?_
      · intro b hb
        rw [hDeq b (hmem2 b hb), hDnew]
        exact hbelow b hb
      · refine List.Pairwise.imp_of_mem ?_ hsort2
        intro a b ha hb hrel
        rw [hDeq a (hmem2 a ha), hDeq b (hmem2 b hb)]
        exact hrel
    · intro a ha b hb
      rcases List.mem_cons.mp hb with rfl | hb2
      · rw [hDnew, hDeq a (hmem1 a ha)]
        exact hpre a ha
      · rw [hDeq a (hmem1 a ha), hDeq b (hmem2 b hb2)]
        have h1 := hbelow b hb2
        have h2 := hpre a ha
        omega
  cases hp2 : (captureWalk s.upvalues l s.openUpvalues).2 with
  | nil =>
    have hbelow : ∀ b ∈ (captureWalk s.upvalues l s.openUpvalues).2,
        locOfD s.upvalues b < l := by
      rw [hp2]
      intro b hb
      exact absurd hb (List.not_mem_nil b)
    rw [captureUpvalue_fresh_nil s l hp2]
    refine ⟨⟨hA, hS hbelow, hF⟩, locOf_cons_self _ _ _,
      List.mem_append_right _ (List.mem_cons_self _ _), ?_⟩
    intro u hu hul
    obtain ⟨r2, hr2⟩ := hshareHead u hu hul
    rw [hp2] at hr2
    exact List.noConfusion hr2
  | cons uid rest' =>
    by_cases hloc : locOf s.upvalues uid = some l
    · rw [captureUpvalue_reuse s l uid rest' hp2 hloc]
      refine ⟨⟨hall, hsort, hfresh⟩, hloc, ?_, ?_⟩
      · refine hmem2 uid ?_
        rw [hp2]
        exact List.mem_cons_self _ _
      · intro u hu hul
        obtain ⟨r2, hr2⟩ := hshareHead u hu hul
        rw [hp2] at hr2
        injection hr2 with h3 _
        rw [h3]
    · have hmemuid : uid ∈ (captureWalk s.upvalues l s.openUpvalues).2 := by
        rw [hp2]
        exact List.mem_cons_self _ _
      obtain ⟨m, hm⟩ := Option.isSome_iff_exists.mp (hall uid (hmem2 uid hmemuid))
      have hDm : locOfD s.upvalues uid = m := by
        unfold locOfD
        rw [hm]
        rfl
      have hle := captureWalk_head s.upvalues l s.openUpvalues uid rest' hp2
      have hmne : m ≠ l := fun h => hloc (h ▸ hm)
      have hbelow : ∀ b ∈ (captureWalk s.upvalues l s.openUpvalues).2,
          locOfD s.upvalues b < l := by
        rw [hp2]
        intro b hb
        rcases List.mem_cons.mp hb with rfl | h3
        · omega
        · have := List.rel_of_pairwise_cons (hp2 ▸ hsort2) h3
          omega
      rw [captureUpvalue_fresh_cons s l uid rest' hp2 hloc]
      refine ⟨⟨hA, hS hbelow, hF⟩, locOf_cons_self _ _ _,
        List.mem_append_right _ (List.mem_cons_self _ _), ?_⟩
      intro u hu hul
      obtain ⟨r2, hr2⟩ := hshareHead u hu hul
      rw [hp2] at hr2
      injection hr2 with h3 _
      exact absurd (h3 ▸ hul) hloc

theorem deepTokens_eq (d : Nat) : deepTokens d = tok .trueK :: deepTail d := by
  cases d <;> rfl

theorem deep_parse (d : Nat) :
    ∀ (fuel : Nat), 6 * d + 2 ≤ fuel →
    ∀ (s : CompState) (nxt : Token) (restS : List Token),
    s.current = tok .trueK →
    s.rest = deepTail d ++ nxt :: restS →
    (getRule nxt.ttype).2.2 = 0 →
    nxt.ttype ≠ .errorT →
    parsePrecedence fuel 1 s =
      { s with previous := deepPrev d
               current := nxt
               rest := restS
               chunk := { s.chunk with
                 code := s.chunk.code ++ deepEmits d
                 lines := s.chunk.lines ++ deepLines d } } := by
  induction d with
  | zero =>
    intro fuel hfuel s nxt restS hcur hrest hinf herr
    obtain ⟨a, rfl⟩ : ∃ a, fuel = a + 2 := ⟨fuel - 2, by omega⟩
    rw [parsePrecedence]
    rw [advance]
    rw [hrest]
    simp only [deepTail, List.nil_append]
    rw [advanceLoop]
    simp only [if_neg herr]
    simp only [hcur, tok, getRule]
    simp only [runPrefix, literalFn, emitByte, writeChunkC, infixLoop, hinf, deepPrev,
      deepEmits, deepLines, tok, Nat.reduceLeDiff, if_false]
  | succ d ih =>
    intro fuel hfuel s nxt restS hcur hrest hinf herr
    obtain ⟨X, rfl, hX⟩ : ∃ X, fuel = X + 6 ∧ 6 * d + 2 ≤ X := ⟨fuel - 6, by omega, by omega⟩
    rw [parsePrecedence, advance, hrest]
    simp only [deepTail, List.cons_append, List.append_assoc]
    rw [advanceLoop]
    simp only [tok, reduceCtorEq, if_false, hcur, getRule, List.nil_append]
    simp only [runPrefix, literalFn, emitByte, writeChunkC]
    rw [infixLoop]
    simp only [getRule, tok, Nat.reduceLeDiff, if_true]
    rw [advance]
    simp only [advanceLoop, tok, reduceCtorEq, if_false]
    simp only [PREC_TERM, Nat.reduceLeDiff, if_true]
    rw [binaryFn]
    simp only [getRule, PREC_TERM]
    rw [parsePrecedence, advance]
    simp only []
    rw [deepTokens_eq]
    simp only [advanceLoop, List.cons_append, tok, reduceCtorEq, if_false, getRule]
    simp only [runPrefix]
    rw [groupingFn]
    simp only [PREC_ASSIGNMENT]
    rw [ih X hX]
    rotate_left
    · exact tok .rightParen
    · exact nxt :: restS
    · rfl
    · rfl
    · rfl
    · decide
    dsimp only
    rw [consume]
    dsimp only [tok]
    rw [if_pos rfl]
    rw [advance]
    dsimp only
    rw [advanceLoop]
    dsimp only
    rw [if_neg herr]
    simp only [infixLoop, hinf, Nat.reduceLeDiff, if_false]
    dsimp only [emitByte, writeChunkC, deepPrev, deepEmits, deepLines]
    simp [hinf, tok, List.append_assoc]

theorem deep_compile (d : Nat) :
    (compile (deepProgram d) (deepFuel d)).1 = true ∧
    (compile (deepProgram d) (deepFuel d)).2.chunk.code =
      deepEmits d ++ [.op .POP, .op .RETURN] := by
  dsimp only [compile, deepFuel, deepProgram]
  rw [deepTokens_eq]
  dsimp only [List.cons_append]
  rw [advance]
  dsimp only
  rw [advanceLoop]
  dsimp only [tok]
  rw [if_neg (show ¬(TokenType.trueK = TokenType.errorT) by decide)]
  rw [declLoop]
  dsimp only [matchTok]
  rw [if_neg (show ¬(TokenType.trueK = TokenType.eof) by decide)]
  dsimp only
  simp only [Bool.false_eq_true, if_false]
  dsimp only [decleration, matchTok]
  rw [if_neg (show ¬(TokenType.trueK = TokenType.varK) by decide)]
  dsimp only
  simp only [Bool.false_eq_true, if_false]
  dsimp only [statementC, matchTok]
  rw [if_neg (show ¬(TokenType.trueK = TokenType.printK) by decide)]
  dsimp only
  simp only [Bool.false_eq_true, if_false]
  dsimp only [expressionStatement, expressionC, PREC_ASSIGNMENT]
  rw [deep_parse d (6 * d + 20) (by omega)]
  rotate_left
  · exact tok .semicolon
  · exact [tok .eof]
  · rfl
  · rfl
  · rfl
  · decide
  dsimp only
  rw [consume]
  dsimp only [tok]
  rw [if_pos (show TokenType.semicolon = TokenType.semicolon from rfl)]
  rw [advance]
  dsimp only
  rw [advanceLoop]
  dsimp only
  rw [if_neg (show ¬(TokenType.eof = TokenType.errorT) by decide)]
  dsimp only [emitByte, writeChunkC]
  simp only [Bool.false_eq_true, if_false]
  rw [declLoop]
  dsimp only [matchTok]
  rw [if_pos (show TokenType.eof = TokenType.eof from rfl)]
  dsimp only
  rw [if_pos (show true = true from rfl)]
  rw [advance]
  dsimp only
  rw [advanceLoop]
  dsimp only [emitReturn, emitByte, writeChunkC]
  exact ⟨rfl, by simp [List.append_assoc]⟩

theorem deepEmits_get : ∀ (d j : Nat), j ≤ d → ∀ (tail : List CByte),
    (deepEmits d ++ tail).get? j = some (CByte.op .TRUE) := by
  intro d
  induction d with
  | zero =>
    intro j hj tail
    interval_cases j
    rfl
  | succ d ih =>
    intro j hj tail
    cases j with
    | zero => rfl
    | succ j =>
      rw [deepEmits, List.cons_append, List.get?_cons_succ, List.append_assoc]
      exact ih j (by omega) ([CByte.op .ADD] ++ tail)

theorem trueRun : ∀ (k : Nat) (f : CallFrame) (fs : List CallFrame) (s : VMState),
    s.frames = f :: fs →
    (∀ j, j < k → f.fn.chunk.code.get? (f.ip + j) = some (CByte.op .TRUE)) →
    runSteps k s = StepRes.ok
      { s with stack := s.stack ++ List.replicate k (Value.bool true)
               frames := { f with ip := f.ip + k } :: fs } := by
  intro k
  induction k with
  | zero =>
    intro f fs s hframes _
    rw [runSteps]
    rw [show ({ f with ip := f.ip + 0 } : CallFrame) = f from rfl]
    rw [← hframes]
    simp
  | succ k ih =>
    intro f fs s hframes hwin
    have h0 : f.fn.chunk.code.get? f.ip = some (CByte.op .TRUE) := by
      have := hwin 0 (by omega)
      simpa using this
    rw [runSteps, step, hframes]
    show (match (match f.fn.chunk.code.get? f.ip with
        | some (CByte.op o) => execOp o f fs s
        | _ => StepRes.halt s) with
      | StepRes.ok s2 => runSteps k s2
      | r => r) = _
    rw [h0]
    show runSteps k (pushV (setIp f fs s (f.ip + 1)) (Value.bool true)) = _
    have hwin2 : ∀ j, j < k →
        ({ f with ip := f.ip + 1 } : CallFrame).fn.chunk.code.get?
          (({ f with ip := f.ip + 1 } : CallFrame).ip + j) = some (CByte.op .TRUE) := by
      intro j hj
      show f.fn.chunk.code.get? (f.ip + 1 + j) = _
      rw [show f.ip + 1 + j = f.ip + (j + 1) from by omega]
      exact hwin (j + 1) (by omega)
    rw [ih { f with ip := f.ip + 1 } fs (pushV (setIp f fs s (f.ip + 1)) (Value.bool true))
      rfl hwin2]
    dsimp only [pushV, setIp]
    rw [show f.ip + 1 + k = f.ip + (k + 1) from by omega]
    simp [List.replicate_succ, List.append_assoc]

theorem callValue_frames_le {cv : Value} {argc : Nat} {s s' : VMState}
    (h : callValue cv argc s = .ok s') (hle : s.frames.length ≤ FRAMES_MAX) :
    s'.frames.length ≤ FRAMES_MAX := by
  cases cv with
  | closure g ups =>
    unfold callValue callFn at h
    dsimp only at h
    by_cases ha : argc ≠ g.arity
    · rw [if_pos ha] at h
      exact Except.noConfusion h
    · rw [if_neg ha] at h
      by_cases hfm : s.frames.length = FRAMES_MAX
      · rw [if_pos hfm] at h
        exact Except.noConfusion h
      · rw [if_neg hfm] at h
        cases h
        show ((⟨g, ups, 0, s.stack.length - argc - 1⟩ : CallFrame) :: s.frames).length ≤
          FRAMES_MAX
        simp only [List.length_cons]
        omega
  | native nid =>
    unfold callValue at h
    dsimp only at h
    cases h
    exact hle
  | nil => unfold callValue at h; dsimp only at h; exact Except.noConfusion h
  | bool b => unfold callValue at h; dsimp only at h; exact Except.noConfusion h
  | number x => unfold callValue at h; dsimp only at h; exact Except.noConfusion h
  | str s0 => unfold callValue at h; dsimp only at h; exact Except.noConfusion h
  | function g => unfold callValue at h; dsimp only at h; exact Except.noConfusion h

/-! ## Claims -/

/-- C1: the claim says that after `tableSet(k, v)` and further `tableSet`
calls with other keys — including ones that trigger a growth via
`adjustCapacity` — `tableGet(k)` hits and yields the value most recently
stored for `k`.  Evaluating the code at the failing input: before the
growth (six insertions) `tableGet` yields the stored value, but the
seventh insertion rehashes to capacity 16, and `adjustCapacity`'s
`dest->value = dest->value;` slip drops every stored value (and its
missing count restore leaves `count = 1`): the lookup of key 1 still hits
but yields `nil`, not the stored `1`.  (The outer `some` layers record
that every probe of this run terminates: no fuel is exhausted.) -/
theorem C1_bug_eval :
    tableGetO c1Table6 (c1Key 1) = some (some (Value.number ((1 : Nat) : Rat))) ∧
    tableGetO c1Table (c1Key 1) = some (some Value.nil) ∧
    tableGetO c1Table (c1Key 1) ≠ some (some (Value.number ((1 : Nat) : Rat))) ∧
    tableCountO c1Table = some 1 := by
  refine ⟨by with_unfolding_all rfl, by with_unfolding_all rfl, ?_, by with_unfolding_all rfl⟩
  intro h
  have h2 : tableGetO c1Table (c1Key 1) = some (some Value.nil) := by with_unfolding_all rfl
  rw [h2] at h
  exact Value.noConfusion (Option.some_injective _ (Option.some_injective _ h))

/-- C2: the claim says identifier expressions resolve local → upvalue →
global and emit the matching GET/SET opcode (SET when `canAssign` and a
`=` follows).  Evaluating the compiler in the tree at `a = 5;`: the
identifier emits `OP_GET_GLOBAL` (the only path `namedVariable` has), no
`OP_SET_GLOBAL` is ever emitted, and the `=` is a compile error ("Expect
';' after expression.") — this revision has no locals, upvalues, or
assignment. -/
theorem C2_bug_eval :
    (compile c2Tokens 30).1 = false ∧
    (compile c2Tokens 30).2.chunk.code =
      [CByte.op OpCode.GET_GLOBAL, CByte.arg 0, CByte.op OpCode.POP, CByte.op OpCode.RETURN] ∧
    (compile c2Tokens 30).2.errors = ["Expect ';' after expression."] ∧
    CByte.op OpCode.SET_GLOBAL ∉ (compile c2Tokens 30).2.chunk.code := by
  refine ⟨by decide, by decide, by decide, by decide⟩

/-- C4: the claim says an accepted program's chunk ends with the two-byte
sequence `OP_NIL, OP_RETURN` and `compile` returns the top-level Function.
Evaluating the compiler in the tree on the empty program: it is accepted,
the chunk is the single byte `OP_RETURN` (its `emitReturn` emits no
`OP_NIL`), and no chunk it emits can end with the claimed two bytes here
(`compile` also returns a success flag over a caller-provided chunk, not
a Function). -/
theorem C4_bug_eval :
    (compile [tok .eof] 10).1 = true ∧
    (compile [tok .eof] 10).2.chunk.code = [CByte.op OpCode.RETURN] ∧
    ∀ pre : List CByte,
      (compile [tok .eof] 10).2.chunk.code ≠
        pre ++ [CByte.op OpCode.NIL, CByte.op OpCode.RETURN] := by
  refine ⟨by decide, by decide, ?_⟩
  intro pre h
  have hc : (compile [tok .eof] 10).2.chunk.code = [CByte.op OpCode.RETURN] := by decide
  rw [hc] at h
  have := congrArg List.length h
  simp at this

/-- C9: binary operator expressions.  `a - b - c` compiles to exactly the
bytes of `(a - b) - c` — and likewise for every operator of the table used
twice, since `binary` parses its right operand at one precedence level
above the operator's own (`rule->precedence + 1`), making equal precedence
left-associative; and each operator emits the specified opcode sequence —
in particular `!=` as EQUAL, NOT; `<=` as GREATER, NOT; `>=` as LESS, NOT. -/
theorem C9_binary_emission :
    ((compile [identTok "a", tok .minus, identTok "b", tok .minus, identTok "c",
        tok .semicolon, tok .eof] 30).2.chunk.code =
      (compile [tok .leftParen, identTok "a", tok .minus, identTok "b", tok .rightParen,
        tok .minus, identTok "c", tok .semicolon, tok .eof] 30).2.chunk.code) ∧
    (compile [identTok "a", tok .minus, identTok "b", tok .minus, identTok "c",
        tok .semicolon, tok .eof] 30).2.chunk.code =
      [CByte.op OpCode.GET_GLOBAL, CByte.arg 0, CByte.op OpCode.GET_GLOBAL, CByte.arg 1,
       CByte.op OpCode.SUBTRACT, CByte.op OpCode.GET_GLOBAL, CByte.arg 2,
       CByte.op OpCode.SUBTRACT, CByte.op OpCode.POP, CByte.op OpCode.RETURN] ∧
    (compile [identTok "a", tok .minus, identTok "b", tok .minus, identTok "c",
        tok .semicolon, tok .eof] 30).1 = true ∧
    (∀ t ∈ [TokenType.plus, TokenType.minus, TokenType.star, TokenType.slash,
            TokenType.equalEqual, TokenType.bangEqual, TokenType.less,
            TokenType.lessEqual, TokenType.greater, TokenType.greaterEqual],
      (compile [identTok "a", tok t, identTok "b", tok .semicolon, tok .eof] 30).2.chunk.code =
        [CByte.op OpCode.GET_GLOBAL, CByte.arg 0, CByte.op OpCode.GET_GLOBAL, CByte.arg 1] ++
          specBinaryBytes t ++ [CByte.op OpCode.POP, CByte.op OpCode.RETURN]) ∧
    (∀ t ∈ [TokenType.plus, TokenType.minus, TokenType.star, TokenType.slash,
            TokenType.equalEqual, TokenType.bangEqual, TokenType.less,
            TokenType.lessEqual, TokenType.greater, TokenType.greaterEqual],
      (compile [identTok "a", tok t, identTok "b", tok t, identTok "c",
          tok .semicolon, tok .eof] 30).2.chunk.code =
        (compile [tok .leftParen, identTok "a", tok t, identTok "b", tok .rightParen,
          tok t, identTok "c", tok .semicolon, tok .eof] 30).2.chunk.code) := by
  refine ⟨by decide, by decide, by decide, ?_, ?_⟩
  · intro t ht
    fin_cases ht <;> decide
  · intro t ht
    fin_cases ht <;> decide

theorem list_getD_pair0 (rest : List Value) (x y : Value) :
    (rest ++ [x, y]).getD ((rest ++ [x, y]).length - 1 - 0) Value.nil = y := by
  have hl : (rest ++ [x, y]).length - 1 - 0 = rest.length + 1 := by simp
  rw [hl, List.getD_eq_getElem?_getD, List.getElem?_append_right (by simp)]
  have : rest.length + 1 - rest.length = 1 := by omega
  rw [this]
  rfl

theorem list_getD_pair1 (rest : List Value) (x y : Value) :
    (rest ++ [x, y]).getD ((rest ++ [x, y]).length - 1 - 1) Value.nil = x := by
  have hl : (rest ++ [x, y]).length - 1 - 1 = rest.length := by simp
  rw [hl, List.getD_eq_getElem?_getD, List.getElem?_append_right (by simp)]
  have : rest.length - rest.length = 0 := by omega
  rw [this]
  rfl

theorem peekV_pair0 (s : VMState) (rest : List Value) (x y : Value)
    (h : s.stack = rest ++ [x, y]) : peekV s 0 = y := by
  unfold peekV
  rw [h]
  exact list_getD_pair0 rest x y

theorem peekV_pair1 (s : VMState) (rest : List Value) (x y : Value)
    (h : s.stack = rest ++ [x, y]) : peekV s 1 = x := by
  unfold peekV
  rw [h]
  exact list_getD_pair1 rest x y

theorem dropLast_pair (rest : List Value) (x y : Value) :
    (rest ++ [x, y]).dropLast.dropLast = rest := by
  have h : rest ++ [x, y] = (rest ++ [x]) ++ [y] := by simp
  rw [h, List.dropLast_concat, List.dropLast_concat]

theorem tableFindStringAux_chars {es : List Entry} {cap : Nat} {chars : String}
    {hsh : Nat} {r : ObjString} :
    ∀ (fuel idx : Nat), tableFindStringAux es cap chars hsh fuel idx = some (some r) →
    r.chars = chars := by
  intro fuel
  induction fuel with
  | zero => intro idx h; exact Option.noConfusion h
  | succ f ih =>
    intro idx h
    rw [tableFindStringAux] at h
    split at h
    · split at h
      · exact Option.noConfusion (Option.some_injective _ h)
      · exact ih _ h
    · split at h
      · rename_i k hk hcond
        obtain ⟨rfl⟩ : k = r := Option.some_injective _ (Option.some_injective _ h)
        exact hcond.2
      · exact ih _ h

theorem tableFindString_chars {t : Table} {chars : String} {hsh : Nat} {r : ObjString}
    (h : tableFindString t chars hsh = some (some r)) : r.chars = chars := by
  unfold tableFindString at h
  split at h
  · exact Option.noConfusion (Option.some_injective _ h)
  · exact tableFindStringAux_chars _ _ h

/-- What a terminating `takeString` returns: a string with the requested
bytes, and the already-interned object when the pool holds one. -/
theorem takeString_spec {chars : String} {s : VMState} {r : ObjString} {s1 : VMState}
    (h : takeString chars s = some (r, s1)) :
    r.chars = chars ∧
    (∀ r0, tableFindString s.strings chars (hashString chars) = some (some r0) →
      r = r0) := by
  cases hf : tableFindString s.strings chars (hashString chars) with
  | none =>
    have he : takeString chars s = none := by
      unfold takeString
      rw [hf]
    rw [he] at h
    exact Option.noConfusion h
  | some o =>
    cases o with
    | some interned =>
      have he : takeString chars s = some (interned, s) := by
        unfold takeString
        rw [hf]
      rw [he] at h
      have hpair := Option.some_injective _ h
      obtain ⟨rfl, rfl⟩ : interned = r ∧ s = s1 :=
        ⟨congrArg Prod.fst hpair, congrArg Prod.snd hpair⟩
      refine ⟨tableFindString_chars hf, ?_⟩
      intro r0 h0
      exact Option.some_injective _ (Option.some_injective _ h0)
    | none =>
      cases hset : tableSet s.strings ⟨s.nextId, chars, hashString chars⟩ Value.nil with
      | none =>
        have he : takeString chars s = none := by
          unfold takeString
          rw [hf, hset]
        rw [he] at h
        exact Option.noConfusion h
      | some p =>
        have he : takeString chars s = some (⟨s.nextId, chars, hashString chars⟩,
            { s with
                nextId := s.nextId + 1
                strings := p.2 }) := by
          unfold takeString
          rw [hf, hset]
        rw [he] at h
        have hpair := Option.some_injective _ h
        have hfst : (⟨s.nextId, chars, hashString chars⟩ : ObjString) = r :=
          congrArg Prod.fst hpair
        refine ⟨?_, ?_⟩
        · rw [← hfst]
        · intro r0 h0
          exact absurd (Option.some_injective _ h0) (fun hc => Option.noConfusion hc)

/-- C3 counterexample: the `OP_ADD` mixed-operand runtime error message in
the code is "Operands must be two numbers of two strings." — not the
claimed "… or two strings.": executing `OP_ADD` on operands `"a"` and `1`
yields the former, which differs from the latter. -/
theorem C3_message_counterexample :
    step c3State = .err "Operands must be two numbers of two strings." (resetStackS c3State) ∧
    "Operands must be two numbers of two strings." ≠
      "Operands must be two numbers or two strings." := by
  refine ⟨by with_unfolding_all rfl, by decide⟩

/-- C3 (amended): for every execution of `OP_ADD`: when both operands
are strings, the result is governed by the interning probe — if it
terminates (`takeString` returns), the VM pushes the interned
concatenation, reusing an already-interned byte sequence; if it does not
(the strings table is completely full and the concatenation absent,
reachable because `adjustCapacity` never restores `count`), the VM never
returns — the C probe loop cycles forever (`StepRes.spin`).  Two number
operands push the numeric sum; anything else raises exactly the runtime
error "Operands must be two numbers of two strings." (sic) and leaves
the runtime-error result state. -/
theorem C3_add_semantics (s : VMState) (f : CallFrame) (fs : List CallFrame)
    (hframes : s.frames = f :: fs)
    (hfetch : f.fn.chunk.code.get? f.ip = some (.op .ADD)) :
    (∀ (rest : List Value) (sa sb : ObjString),
      s.stack = rest ++ [Value.str sa, Value.str sb] →
      (∀ (r : ObjString) (s1 : VMState),
        takeString (sa.chars ++ sb.chars) s = some (r, s1) →
        step s = .ok { setIp f fs s1 (f.ip + 1) with
          stack := rest ++ [Value.str r] } ∧
        r.chars = sa.chars ++ sb.chars ∧
        (∀ r0, tableFindString s.strings (sa.chars ++ sb.chars)
            (hashString (sa.chars ++ sb.chars)) = some (some r0) → r = r0)) ∧
      (takeString (sa.chars ++ sb.chars) s = none → step s = .spin s)) ∧
    (∀ (rest : List Value) (a b : Rat),
      s.stack = rest ++ [Value.number a, Value.number b] →
      ∃ s2, step s = .ok s2 ∧ s2.stack = rest ++ [Value.number (a + b)]) ∧
    (¬(isStringV (peekV s 0) = true ∧ isStringV (peekV s 1) = true) →
      ¬(isNumberV (peekV s 0) = true ∧ isNumberV (peekV s 1) = true) →
      step s = .err "Operands must be two numbers of two strings." (resetStackS s)) := by
  have hstep : step s = execOp .ADD f fs s := by
    rw [step, hframes]
    show (match f.fn.chunk.code.get? f.ip with
      | some (CByte.op o) => execOp o f fs s
      | _ => StepRes.halt s) = _
    rw [hfetch]
  refine ⟨?_, ?_, ?_⟩
  · intro rest sa sb hstack
    have h0 := peekV_pair0 s rest _ _ hstack
    have h1 := peekV_pair1 s rest _ _ hstack
    constructor
    · intro r s1 ht
      refine ⟨?_, (takeString_spec ht).1, (takeString_spec ht).2⟩
      rw [hstep]
      simp only [execOp, h0, h1, ht]
      rw [hstack, dropLast_pair]
    · intro ht
      rw [hstep]
      simp only [execOp, h0, h1, ht]
  · intro rest a b hstack
    have h0 := peekV_pair0 s rest _ _ hstack
    have h1 := peekV_pair1 s rest _ _ hstack
    refine ⟨{ setIp f fs s (f.ip + 1) with
      stack := s.stack.dropLast.dropLast ++ [Value.number (a + b)] }, ?_, ?_⟩
    · rw [hstep]
      simp only [execOp, h0, h1]
    · show (s.stack.dropLast.dropLast ++ [Value.number (a + b)]) = _
      rw [hstack, dropLast_pair]
  · intro hns hnn
    rw [hstep]
    simp only [execOp]
    split
    · rename_i sb sa h1 h2
      exact absurd ⟨by rw [h1]; rfl, by rw [h2]; rfl⟩ hns
    · rename_i b a h1 h2
      exact absurd ⟨by rw [h1]; rfl, by rw [h2]; rfl⟩ hnn
    · rfl

/-- Witness for the amended C3: a concrete numeric addition, and the
concrete full-pool state where the interning probe never terminates. -/
theorem C3_add_semantics_witness :
    (∃ s2, step c3NumState = .ok s2 ∧ s2.stack = [] ++ [Value.number ((2 : Rat) + 3)]) ∧
    step c3SpinState = .spin c3SpinState := by
  constructor
  · exact (C3_add_semantics c3NumState _ [] rfl rfl).2.1 [] 2 3 rfl
  · exact ((C3_add_semantics c3SpinState _ [] rfl rfl).1 []
      ⟨20, "ab", hashString "ab"⟩ ⟨21, "cd", hashString "cd"⟩ rfl).2
      (by with_unfolding_all rfl)

/-- C5: the claim says executing `OP_SET_GLOBAL` for a name that is not
a key of the globals table raises exactly "Undefined variable 'name'."
and rolls the insertion back with `tableDelete`.  Evaluating the code at
the failing input refutes this: sixteen distinct insertions leave the
globals table completely full at capacity 16 with `count` stuck at 10 —
`adjustCapacity` reset `count` during the 8→16 growth and never restored
it, so the 0.75 load check (which needs `count ≥ 12`) can never fire
again — and `OP_SET_GLOBAL` for a seventeenth, absent name then cycles
in `findEntry` forever: it never raises the error, and never returns at
all.  (Whenever the probes do terminate the claimed rollback behaviour
holds — `tableSetRaw_absent_rollback` — but this reachable state is
covered by the claim and diverges.) -/
theorem C5_bug_eval :
    c5Full = some c5FullT ∧
    c5FullT.capacity = 16 ∧
    c5FullT.count = 10 ∧
    c5FullT.entries.all occB = true ∧
    tableSet c5FullT c5Name (Value.number 1) = none ∧
    step c5State = .spin c5State ∧
    (∀ msg s2, step c5State ≠ .err msg s2) := by
  refine ⟨by with_unfolding_all rfl, by with_unfolding_all rfl, by with_unfolding_all rfl,
    by with_unfolding_all rfl, by with_unfolding_all rfl, by with_unfolding_all rfl, ?_⟩
  intro msg s2 h
  have h2 : step c5State = .spin c5State := by with_unfolding_all rfl
  rw [h2] at h
  exact StepRes.noConfusion h

/-- Witness for C9's quantified conjuncts at the `!=` operator. -/
theorem C9_binary_emission_witness :
    (compile [identTok "a", tok .bangEqual, identTok "b", tok .semicolon,
      tok .eof] 30).2.chunk.code =
      [CByte.op OpCode.GET_GLOBAL, CByte.arg 0, CByte.op OpCode.GET_GLOBAL, CByte.arg 1] ++
        specBinaryBytes .bangEqual ++ [CByte.op OpCode.POP, CByte.op OpCode.RETURN] :=
  C9_binary_emission.2.2.2.1 .bangEqual (by decide)

/-- C6: `call` raises exactly "Stack overflow." when the frame stack
already holds `FRAMES_MAX = 64` frames — returning the error without
constructing any frame, so no instruction of the callee's body can run —
and below the limit (with matching arity) it pushes exactly one frame
with the ip at the start of the callee's code. -/
theorem C6_frame_limit : ∀ (s : VMState) (f : ObjFunctionG Value) (ups : List Nat) (argc : Nat),
    FRAMES_MAX = 64 ∧
    (s.frames.length = FRAMES_MAX → argc = f.arity →
      callFn f ups argc s = .error "Stack overflow.") ∧
    (s.frames.length < FRAMES_MAX → argc = f.arity →
      callFn f ups argc s =
        .ok { s with frames := ⟨f, ups, 0, s.stack.length - argc - 1⟩ :: s.frames }) := by
  intro s f ups argc
  refine ⟨rfl, ?_, ?_⟩
  · intro hlen harity
    unfold callFn
    rw [if_neg (fun hh => hh harity), if_pos hlen]
  · intro hlen harity
    unfold callFn
    rw [if_neg (fun hh => hh harity), if_neg (by omega)]

/-- Witness for C6 at a full frame stack. -/
theorem C6_frame_limit_witness :
    callFn emptyFn [] 0 c6State = .error "Stack overflow." :=
  (C6_frame_limit c6State emptyFn [] 0).2.1 rfl rfl

/-- C10: `callValue` on a native callee with `n` arguments invokes the
native immediately with `n` and the argument window, replaces the callee
and the `n` arguments by the returned value, and never fails — in
particular, a native invoked with any argument count raises no runtime
error; and the only error a non-closure callee can produce is "Can only
call functions and classes.", so the arity message "Expected N arguments
but got M." can only arise from Closure calls. -/
theorem C10_native_no_arity (s : VMState) (nid argc : Nat) (base args : List Value)
    (hstack : s.stack = base ++ Value.native nid :: args)
    (hlen : args.length = argc) :
    callValue (Value.native nid) argc s =
      .ok { s with stack := base ++ [s.nativeEnv nid argc args] } ∧
    (∀ n msg, callValue (Value.native nid) n s ≠ .error msg) ∧
    (∀ (cv : Value) (n : Nat) (msg : String),
      (∀ g ups, cv ≠ Value.closure g ups) →
      callValue cv n s = .error msg →
      msg = "Can only call functions and classes.") := by
  refine ⟨?_, ?_, ?_⟩
  · subst hlen
    have hdrop : s.stack.drop (s.stack.length - args.length) = args := by
      rw [hstack]
      have h1 : (base ++ Value.native nid :: args).length - args.length =
          (base ++ [Value.native nid]).length := by simp; omega
      rw [h1]
      have he : base ++ Value.native nid :: args = (base ++ [Value.native nid]) ++ args := by
        simp
      rw [he]
      exact List.drop_left _ _
    have htake : s.stack.take (s.stack.length - (args.length + 1)) = base := by
      rw [hstack]
      have h2 : (base ++ Value.native nid :: args).length - (args.length + 1) =
          base.length := by simp
      rw [h2]
      exact List.take_left _ _
    unfold callValue
    rw [hdrop, htake]
  · intro n msg h
    unfold callValue at h
    exact Except.noConfusion h
  · intro cv n msg hnc h
    cases cv with
    | closure g ups => exact absurd rfl (hnc g ups)
    | native nid2 =>
      unfold callValue at h
      exact Except.noConfusion h
    | nil => unfold callValue at h; exact ((Except.error.injEq _ _).mp h).symm
    | bool b => unfold callValue at h; exact ((Except.error.injEq _ _).mp h).symm
    | number x => unfold callValue at h; exact ((Except.error.injEq _ _).mp h).symm
    | str s0 => unfold callValue at h; exact ((Except.error.injEq _ _).mp h).symm
    | function g => unfold callValue at h; exact ((Except.error.injEq _ _).mp h).symm

/-- Witness for C10 at a concrete native call. -/
theorem C10_native_no_arity_witness :
    callValue (Value.native 0) 1 c10State =
      .ok { c10State with stack := [] ++ [c10State.nativeEnv 0 1 [Value.bool true]] } :=
  (C10_native_no_arity c10State 0 1 [] [Value.bool true] rfl rfl).1


/-- C8: under the open-upvalue invariant (the open list is sorted by
captured stack location in strictly descending order, every listed
upvalue is open, and heap handles are fresh), `captureUpvalue` preserves
the invariant and returns an open upvalue at the requested slot that is
on the open list; capturing the same slot again returns the very same
upvalue with the state untouched, and whenever an open upvalue at the
slot already exists `captureUpvalue` returns it without changing the
state — so at most one upvalue exists per live stack slot (the
uniqueness conjunct) and two closures capturing the same local share one
cell.  `closeUpvalues` also preserves the invariant, and every upvalue
still open afterwards kept its cell untouched and captures a slot below
the closed region. -/
theorem C8_upvalue_invariants (s : VMState) (localSlot last : Nat) (hinv : upInv s) :
    upInv (captureUpvalue localSlot s).2 ∧
    locOf (captureUpvalue localSlot s).2.upvalues (captureUpvalue localSlot s).1 =
      some localSlot ∧
    (captureUpvalue localSlot s).1 ∈ (captureUpvalue localSlot s).2.openUpvalues ∧
    captureUpvalue localSlot (captureUpvalue localSlot s).2 =
      ((captureUpvalue localSlot s).1, (captureUpvalue localSlot s).2) ∧
    (∀ u ∈ s.openUpvalues, locOf s.upvalues u = some localSlot →
        captureUpvalue localSlot s = (u, s)) ∧
    (∀ u ∈ s.openUpvalues, ∀ v ∈ s.openUpvalues,
        locOfD s.upvalues u = locOfD s.upvalues v → u = v) ∧
    upInv (closeUpvalues last s) ∧
    (∀ u ∈ (closeUpvalues last s).openUpvalues,
        locOf (closeUpvalues last s).upvalues u = locOf s.upvalues u ∧
        locOfD s.upvalues u < last) := by
  obtain ⟨hcap1, hcap2, hcap3, hcap4⟩ := captureUpvalue_spec s localSlot hinv
  obtain ⟨hall, hsort, hfresh⟩ := hinv
  have hidem : captureUpvalue localSlot (captureUpvalue localSlot s).2 =
      ((captureUpvalue localSlot s).1, (captureUpvalue localSlot s).2) := by
    obtain ⟨_, _, _, hshare⟩ :=
      captureUpvalue_spec (captureUpvalue localSlot s).2 localSlot hcap1
    exact hshare _ hcap3 hcap2
  have huniq : ∀ u ∈ s.openUpvalues, ∀ v ∈ s.openUpvalues,
      locOfD s.upvalues u = locOfD s.upvalues v → u = v := by
    intro u hu v hv he
    by_contra hne
    rcases pairwise_rel_of_ne hsort hu hv hne with h | h <;> omega
  obtain ⟨hc1, hc2, hc3⟩ := closeAux_spec last s.stack s.openUpvalues s.upvalues hall hsort
  have hcloseInv : upInv (closeUpvalues last s) := by
    refine ⟨?_, ?_, ?_⟩
    · intro u hu
      have hu' : u ∈ (closeUpvaluesAux last s.stack s.openUpvalues s.upvalues).1 := hu
      obtain ⟨e1, _⟩ := hc1 u hu'
      show (locOf (closeUpvaluesAux last s.stack s.openUpvalues s.upvalues).2 u).isSome
      rw [e1]
      exact hall u (hc2.subset hu')
    · show List.Pairwise (fun a b =>
          locOfD (closeUpvaluesAux last s.stack s.openUpvalues s.upvalues).2 b <
          locOfD (closeUpvaluesAux last s.stack s.openUpvalues s.upvalues).2 a)
        (closeUpvaluesAux last s.stack s.openUpvalues s.upvalues).1
      have hs0 : List.Pairwise (fun a b => locOfD s.upvalues b < locOfD s.upvalues a)
          (closeUpvaluesAux last s.stack s.openUpvalues s.upvalues).1 :=
        List.Pairwise.sublist hc2.sublist hsort
      refine List.Pairwise.imp_of_mem ?_ hs0
      intro a b ha hb hrel
      have ea : locOfD (closeUpvaluesAux last s.stack s.openUpvalues s.upvalues).2 a =
          locOfD s.upvalues a := by
        unfold locOfD
        rw [(hc1 a ha).1]
      have eb : locOfD (closeUpvaluesAux last s.stack s.openUpvalues s.upvalues).2 b =
          locOfD s.upvalues b := by
        unfold locOfD
        rw [(hc1 b hb).1]
      rw [ea, eb]
      exact hrel
    · intro p hp
      have hp' : p ∈ (closeUpvaluesAux last s.stack s.openUpvalues s.upvalues).2 := hp
      have h1 : p.1 ∈ ((closeUpvaluesAux last s.stack s.openUpvalues s.upvalues).2).map
          Prod.fst := List.mem_map_of_mem _ hp'
      rw [hc3] at h1
      obtain ⟨q, hq, hq1⟩ := List.mem_map.mp h1
      show p.1 < s.nextId
      rw [← hq1]
      exact hfresh q hq
  have hcloseRem : ∀ u ∈ (closeUpvalues last s).openUpvalues,
      locOf (closeUpvalues last s).upvalues u = locOf s.upvalues u ∧
      locOfD s.upvalues u < last := by
    intro u hu
    have hu' : u ∈ (closeUpvaluesAux last s.stack s.openUpvalues s.upvalues).1 := hu
    exact hc1 u hu'
  exact ⟨hcap1, hcap2, hcap3, hidem, hcap4, huniq, hcloseInv, hcloseRem⟩

/-- Witness for C8 at a concrete state with no open upvalues. -/
theorem C8_upvalue_invariants_witness :
    upInv c8State ∧
    (upInv (captureUpvalue 0 c8State).2 ∧
     locOf (captureUpvalue 0 c8State).2.upvalues (captureUpvalue 0 c8State).1 = some 0 ∧
     (captureUpvalue 0 c8State).1 ∈ (captureUpvalue 0 c8State).2.openUpvalues ∧
     captureUpvalue 0 (captureUpvalue 0 c8State).2 =
       ((captureUpvalue 0 c8State).1, (captureUpvalue 0 c8State).2) ∧
     (∀ u ∈ c8State.openUpvalues, locOf c8State.upvalues u = some 0 →
         captureUpvalue 0 c8State = (u, c8State)) ∧
     (∀ u ∈ c8State.openUpvalues, ∀ v ∈ c8State.openUpvalues,
         locOfD c8State.upvalues u = locOfD c8State.upvalues v → u = v) ∧
     upInv (closeUpvalues 0 c8State) ∧
     (∀ u ∈ (closeUpvalues 0 c8State).openUpvalues,
         locOf (closeUpvalues 0 c8State).upvalues u = locOf c8State.upvalues u ∧
         locOfD c8State.upvalues u < 0)) := by
  have hinv : upInv c8State :=
    ⟨fun u hu => absurd hu (List.not_mem_nil u), List.Pairwise.nil,
     fun p hp => absurd hp (List.not_mem_nil p)⟩
  exact ⟨hinv, C8_upvalue_invariants c8State 0 0 hinv⟩


/-- C7, counterexample: the claim that for every accepted program every
reachable VM state keeps the value stack within `STACK_MAX` slots is
false — `push` has no bounds check, and the accepted program
`true + (true + (… ))` with 16383 nested groupings (deepProgram 16383)
drives the stack to 16385 > STACK_MAX = 16384 values after 16384 steps. -/
theorem C7_stack_bound_counterexample : ¬ stackBoundsClaim := by
  intro hclaim
  obtain ⟨hok, hcode⟩ := deep_compile 16383
  have hframes : (scriptStart (chunkFunction (compile (deepProgram 16383)
      (deepFuel 16383)).2.chunk)).frames =
      (⟨chunkFunction (compile (deepProgram 16383) (deepFuel 16383)).2.chunk, [], 0, 0⟩ :
        CallFrame) :: [] := rfl
  have hwin : ∀ j, j < 16384 →
      ((⟨chunkFunction (compile (deepProgram 16383) (deepFuel 16383)).2.chunk, [], 0, 0⟩ :
        CallFrame)).fn.chunk.code.get?
      ((⟨chunkFunction (compile (deepProgram 16383) (deepFuel 16383)).2.chunk, [], 0, 0⟩ :
        CallFrame).ip + j) = some (CByte.op .TRUE) := by
    intro j hj
    show (chunkFunction (compile (deepProgram 16383) (deepFuel 16383)).2.chunk).chunk.code.get?
      (0 + j) = _
    rw [Nat.zero_add]
    have he : (chunkFunction (compile (deepProgram 16383) (deepFuel 16383)).2.chunk).chunk.code =
        deepEmits 16383 ++ [CByte.op .POP, CByte.op .RETURN] := hcode
    rw [he]
    exact deepEmits_get 16383 j (by omega) _
  have hrun := trueRun 16384 _ []
    (scriptStart (chunkFunction (compile (deepProgram 16383) (deepFuel 16383)).2.chunk))
    hframes hwin
  have hb := hclaim (deepProgram 16383) (deepFuel 16383) hok 16384 _ hrun
  have h1 := hb.1
  simp only [scriptStart, STACK_MAX, FRAMES_MAX, List.length_append, List.length_replicate,
    List.length_cons, List.length_nil] at h1
  omega


/-- C7 (amended): the call-frame half of the claim holds — every opcode
of the dispatch (including `OP_CALL`, which refuses a 65th frame with
"Stack overflow.", and the error paths, which clear the frame stack)
preserves `frames.length ≤ FRAMES_MAX`.  The value-stack half is refuted
by the counterexample above. -/
theorem C7_frame_bound_preserved (s : VMState) (h : s.frames.length ≤ FRAMES_MAX) :
    (resFrames (step s)).length ≤ FRAMES_MAX := by
  rw [step]
  cases hf : s.frames with
  | nil =>
    dsimp only [resFrames]
    rw [hf]
    simp [FRAMES_MAX]
  | cons f fs =>
    have hlen : fs.length + 1 ≤ FRAMES_MAX := by
      rw [hf] at h
      simpa using h
    show (resFrames (match f.fn.chunk.code.get? f.ip with
      | some (CByte.op o) => execOp o f fs s
      | _ => StepRes.halt s)).length ≤ FRAMES_MAX
    cases hfetch : f.fn.chunk.code.get? f.ip with
    | none =>
      dsimp only [resFrames]
      rw [hf]
      simpa using hlen
    | some cb =>
      cases cb with
      | arg n =>
        dsimp only [resFrames]
        rw [hf]
        simpa using hlen
      | op o =>
        show (resFrames (execOp o f fs s)).length ≤ FRAMES_MAX
        cases o <;>
          (dsimp only [execOp, binNum]
           repeat' split
           all_goals try dsimp only [resFrames, pushV, setIp, runtimeErr, resetStackS]
           all_goals try simp only [List.length_cons, List.length_nil]
           all_goals
             first
               | omega
               | (rename_i heq
                  exact callValue_frames_le heq (by simpa using hlen)))

/-- Witness for the C7 frame-bound theorem at a concrete one-frame state. -/
theorem C7_frame_bound_preserved_witness :
    (scriptStart emptyFn).frames.length ≤ FRAMES_MAX ∧
    (resFrames (step (scriptStart emptyFn))).length ≤ FRAMES_MAX :=
  ⟨by decide, C7_frame_bound_preserved (scriptStart emptyFn) (by decide)⟩

end Onyx